import Mathlib

/-!
# Render bins of `IWorldObjectModelRenderer`

A shallow embedding of `rts/Rendering/Models/WorldObjectModelRenderer.cpp`.

* Objects are referred to by pointer; a pointer is modelled by a natural number
  (its address), compared by equality as `std::find` and the map lookups do.
* `UnitSet` and `ProjectileSet` are vectors (`push_back`, `back`, `pop_back`),
  modelled by lists.
* `FeatureSet` and the three render-bin collections are unique-key maps. They are
  modelled by association lists; every map operation below acts on the first
  entry carrying the key, and `KeysNodup` says that an association list is a
  state such a map can be in.
* The opacity stored for a feature is a `float` that is only stored and compared
  with `!=`; it is modelled by an arbitrary type `A` with decidable equality, `!=`
  being disequality of the stored values (as for floats other than NaN, the two
  zeros identified).
* The counters are `int`s in the range where `+= 1` and `-= 1` do not overflow;
  they are modelled by `Int`.
* `TEX_TYPE` is a macro of the header; it is a parameter of every operation that
  uses it.
-/

namespace Spring

/-! ## Keyed containers -/

/-- Association-list model of a unique-key map from `K` to `V`. -/
abbrev AssocMap (K V : Type) := List (K × V)

namespace AssocMap

variable {K V : Type} [DecidableEq K]

/-- Value stored under `k` (`m.find(k)`, `none` standing for `m.end()`). -/
def find : AssocMap K V → K → Option V
  | [], _ => none
  | (k', v) :: r, k => if k' = k then some v else find r k

/-- Whether `k` is a key of the map. -/
def contains (m : AssocMap K V) (k : K) : Bool := (find m k).isSome

/-- Write `v` under `k`: overwrite the stored value if `k` is a key, otherwise add
the entry (`m[k] = v`). -/
def put : AssocMap K V → K → V → AssocMap K V
  | [], k, v => [(k, v)]
  | (k', v') :: r, k, v => if k' = k then (k', v) :: r else (k', v') :: put r k v

/-- Effect of `m[k]` on the map itself: a value-initialised entry `d` is created
when `k` is not a key. -/
def subscript (m : AssocMap K V) (k : K) (d : V) : AssocMap K V :=
  if contains m k then m else put m k d

/-- Remove the entry stored under `k` (`m.erase(k)`). -/
def erase : AssocMap K V → K → AssocMap K V
  | [], _ => []
  | (k', v) :: r, k => if k' = k then r else (k', v) :: erase r k

/-- Keys of the map, in entry order. -/
def keys (m : AssocMap K V) : List K := m.map Prod.fst

/-- The association list has no repeated key. -/
def KeysNodup (m : AssocMap K V) : Prop := (keys m).Nodup

end AssocMap

/-! ## Data model -/

/-- Pointer to a unit (`CUnit*`). -/
abbrev CUnit := Nat
/-- Pointer to a feature (`CFeature*`). -/
abbrev CFeature := Nat
/-- Pointer to a projectile (`CProjectile*`). -/
abbrev CProjectile := Nat

/-- Vector of unit pointers. -/
abbrev UnitSet := List CUnit
/-- Map from feature pointer to opacity. -/
abbrev FeatureSet (A : Type) := AssocMap CFeature A
/-- Vector of projectile pointers. -/
abbrev ProjectileSet := List CProjectile

/-- Unit bins, keyed by texture type. -/
abbrev UnitRenderBin := AssocMap Int UnitSet
/-- Feature bins, keyed by texture type. -/
abbrev FeatureRenderBin (A : Type) := AssocMap Int (FeatureSet A)
/-- Projectile bins, keyed by texture type. -/
abbrev ProjectileRenderBin := AssocMap Int ProjectileSet

/-- Data members of `IWorldObjectModelRenderer` that the bin operations use. -/
structure Renderer (A : Type) where
  units : UnitRenderBin
  features : FeatureRenderBin A
  featuresSave : FeatureRenderBin A
  projectiles : ProjectileRenderBin
  numUnits : Int
  numFeatures : Int
  numFeaturesSave : Int
  numProjectiles : Int
deriving DecidableEq

/-- Modelled from the spec: the constructor is in the header, which is not among
the sources. A new renderer has empty bin collections and all four counters 0. -/
def Renderer.init (A : Type) : Renderer A :=
  { units := [], features := [], featuresSave := [], projectiles := [],
    numUnits := 0, numFeatures := 0, numFeaturesSave := 0, numProjectiles := 0 }

/-! ## Vector removal -/

/-- The statements `*it = v.back(); v.pop_back();` with `it` at index `i`. -/
def swapPop (v : List Nat) (i : Nat) : List Nat :=
  match v.getLast? with
  | some b => (v.set i b).dropLast
  | none => v

/-! ## Operations -/

/-- The bin stored under `k` (what the reference `m[k]` refers to once the entry
exists), empty when there is none. -/
def binAt {B : Type} (m : AssocMap Int (List B)) (k : Int) : List B :=
  (AssocMap.find m k).getD []

variable {A : Type}

/-- The method `IWorldObjectModelRenderer::AddUnit`. -/
def AddUnit (TEX_TYPE : CUnit → Int) (s : Renderer A) (u : CUnit) : Renderer A :=
  let units := AssocMap.subscript s.units (TEX_TYPE u) []
  let us := binAt units (TEX_TYPE u)
  if us.indexOf u = us.length then
    { s with units := AssocMap.put units (TEX_TYPE u) (us ++ [u]),
             numUnits := s.numUnits + 1 }
  else
    { s with units := units }

/-- The method `IWorldObjectModelRenderer::DelUnit`. -/
def DelUnit (TEX_TYPE : CUnit → Int) (s : Renderer A) (u : CUnit) : Renderer A :=
  let units := AssocMap.subscript s.units (TEX_TYPE u) []
  let us := binAt units (TEX_TYPE u)
  let it := us.indexOf u
  let s1 : Renderer A :=
    if it ≠ us.length then
      { s with units := AssocMap.put units (TEX_TYPE u) (swapPop us it),
               numUnits := s.numUnits - 1 }
    else
      { s with units := units }
  if (binAt s1.units (TEX_TYPE u)).isEmpty then
    { s1 with units := AssocMap.erase s1.units (TEX_TYPE u) }
  else
    s1

/-- The method `IWorldObjectModelRenderer::AddFeature`. -/
def AddFeature [DecidableEq A] (TEX_TYPE : CFeature → Int) (s : Renderer A) (f : CFeature) (alpha : A) :
    Renderer A :=
  let features := AssocMap.subscript s.features (TEX_TYPE f) []
  let fs := binAt features (TEX_TYPE f)
  match AssocMap.find fs f with
  | some a =>
    if a ≠ alpha then
      { s with features := AssocMap.put features (TEX_TYPE f) (AssocMap.put fs f alpha) }
    else
      { s with features := features }
  | none =>
    { s with features := AssocMap.put features (TEX_TYPE f) (AssocMap.put fs f alpha),
             numFeatures := s.numFeatures + 1 }

/-- One of the two blocks of `DelFeature`, on a bin collection and its counter:
look the bin up with `find`; when there is one, erase `f` from it, decrement the
counter if an entry was erased, and erase the bin from the collection if it is
now empty. -/
def delFeatureFrom (bins : FeatureRenderBin A) (num : Int) (k : Int) (f : CFeature) :
    FeatureRenderBin A × Int :=
  match AssocMap.find bins k with
  | some fs =>
    let num1 := if AssocMap.contains fs f then num - 1 else num
    let fs1 := AssocMap.erase fs f
    if fs1.isEmpty then (AssocMap.erase (AssocMap.put bins k fs1) k, num1)
    else (AssocMap.put bins k fs1, num1)
  | none => (bins, num)

/-- The method `IWorldObjectModelRenderer::DelFeature`: the first block works on `features`
and `numFeatures`, the second on `featuresSave` and `numFeaturesSave`. -/
def DelFeature (TEX_TYPE : CFeature → Int) (s : Renderer A) (f : CFeature) : Renderer A :=
  let live := delFeatureFrom s.features s.numFeatures (TEX_TYPE f) f
  let saved := delFeatureFrom s.featuresSave s.numFeaturesSave (TEX_TYPE f) f
  { s with features := live.1, numFeatures := live.2,
           featuresSave := saved.1, numFeaturesSave := saved.2 }

/-- The method `IWorldObjectModelRenderer::SwapFeatures`. -/
def SwapFeatures (s : Renderer A) : Renderer A :=
  { s with features := s.featuresSave, featuresSave := s.features,
           numFeatures := s.numFeaturesSave, numFeaturesSave := s.numFeatures }

/-- The method `IWorldObjectModelRenderer::AddProjectile`. -/
def AddProjectile (TEX_TYPE : CProjectile → Int) (s : Renderer A) (p : CProjectile) :
    Renderer A :=
  let projectiles := AssocMap.subscript s.projectiles (TEX_TYPE p) []
  let ps := binAt projectiles (TEX_TYPE p)
  if ps.indexOf p = ps.length then
    { s with projectiles := AssocMap.put projectiles (TEX_TYPE p) (ps ++ [p]),
             numProjectiles := s.numProjectiles + 1 }
  else
    { s with projectiles := projectiles }

/-- The method `IWorldObjectModelRenderer::DelProjectile`. -/
def DelProjectile (TEX_TYPE : CProjectile → Int) (s : Renderer A) (p : CProjectile) :
    Renderer A :=
  let projectiles := AssocMap.subscript s.projectiles (TEX_TYPE p) []
  let ps := binAt projectiles (TEX_TYPE p)
  let it := ps.indexOf p
  if it ≠ ps.length then
    { s with projectiles := AssocMap.put projectiles (TEX_TYPE p) (swapPop ps it),
             numProjectiles := s.numProjectiles - 1 }
  else
    { s with projectiles := projectiles }

/-! ## Call sequences -/

/-- The macro `TEX_TYPE` at its three argument types: the classification key that
a call reads from the object it is given. -/
structure TexType where
  unit : CUnit → Int
  feature : CFeature → Int
  projectile : CProjectile → Int

/-- A call of one of the seven bin operations. -/
inductive Call (A : Type) where
  | addUnit (u : CUnit)
  | delUnit (u : CUnit)
  | addFeature (f : CFeature) (alpha : A)
  | delFeature (f : CFeature)
  | swapFeatures
  | addProjectile (p : CProjectile)
  | delProjectile (p : CProjectile)

/-- Effect of one call, the objects being classified by `t` at the time of the call. -/
def step [DecidableEq A] (t : TexType) (s : Renderer A) : Call A → Renderer A
  | .addUnit u => AddUnit t.unit s u
  | .delUnit u => DelUnit t.unit s u
  | .addFeature f alpha => AddFeature t.feature s f alpha
  | .delFeature f => DelFeature t.feature s f
  | .swapFeatures => SwapFeatures s
  | .addProjectile p => AddProjectile t.projectile s p
  | .delProjectile p => DelProjectile t.projectile s p

/-- States reached from the initial state by finitely many calls; the
classification read by a call may differ from call to call. -/
inductive Reachable [DecidableEq A] : Renderer A → Prop
  | init : Reachable (Renderer.init A)
  | step (t : TexType) {s : Renderer A} (c : Call A) : Reachable s → Reachable (step t s c)

/-- States reached from the initial state by finitely many calls while every
object keeps the classification key given by `t`. -/
inductive ReachableFixed [DecidableEq A] (t : TexType) : Renderer A → Prop
  | init : ReachableFixed t (Renderer.init A)
  | step {s : Renderer A} (c : Call A) : ReachableFixed t s → ReachableFixed t (step t s c)

/-- Sum of the sizes of all bins of a collection. -/
def totalSize {B : Type} (m : AssocMap Int (List B)) : Int :=
  ((m.map (fun e => e.2.length)).sum : Nat)

/-! ## The vector bins seen key by key -/

/-- The collection after `v = m[k]` followed by `v.push_back(x)` unless `x` is found in `v`:
the bin code shared by `AddUnit` and `AddProjectile`. -/
def pushBin (m : AssocMap Int (List Nat)) (k : Int) (x : Nat) : AssocMap Int (List Nat) :=
  if (binAt (AssocMap.subscript m k []) k).indexOf x
      = (binAt (AssocMap.subscript m k []) k).length then
    AssocMap.put (AssocMap.subscript m k []) k (binAt (AssocMap.subscript m k []) k ++ [x])
  else AssocMap.subscript m k []

/-- The collection after `v = m[k]` followed by the swap-with-last removal of `x` if `x` is
found in `v`: the bin code shared by `DelUnit` and `DelProjectile`. -/
def popBin (m : AssocMap Int (List Nat)) (k : Int) (x : Nat) : AssocMap Int (List Nat) :=
  if (binAt (AssocMap.subscript m k []) k).indexOf x
      ≠ (binAt (AssocMap.subscript m k []) k).length then
    AssocMap.put (AssocMap.subscript m k []) k
      (swapPop (binAt (AssocMap.subscript m k []) k)
        ((binAt (AssocMap.subscript m k []) k).indexOf x))
  else AssocMap.subscript m k []

/-- The collection after `if (m[k].empty()) m.erase(k)`: the last statement of `DelUnit`. -/
def pruneBin {B : Type} (m : AssocMap Int (List B)) (k : Int) : AssocMap Int (List B) :=
  if (binAt m k).isEmpty then AssocMap.erase m k else m

/-- Each counter equals the sum of the sizes of the bins it counts. -/
def CountersOk (s : Renderer A) : Prop :=
  s.numUnits = totalSize s.units ∧ s.numProjectiles = totalSize s.projectiles ∧
    s.numFeatures = totalSize s.features ∧ s.numFeaturesSave = totalSize s.featuresSave

/-! ## Replay of Add/Del sequences -/

/-- State after the calls `cs`, made in order from `s`, every object keeping the
classification key given by `t`. -/
def run [DecidableEq A] (t : TexType) (s : Renderer A) (cs : List (Call A)) : Renderer A :=
  cs.foldl (step t) s

/-- An Add or a Del call on one kind of vector bin, naming the object `x`. -/
inductive BinCall where
  | add (x : Nat)
  | del (x : Nat)
deriving DecidableEq

/-- The object a call names. -/
def BinCall.obj : BinCall → Nat
  | .add x => x
  | .del x => x

/-- Whether the call is an Add. -/
def BinCall.isAdd : BinCall → Bool
  | .add _ => true
  | .del _ => false

/-- The call read as `AddUnit` / `DelUnit`. -/
def BinCall.unitCall (A : Type) : BinCall → Call A
  | .add x => Call.addUnit x
  | .del x => Call.delUnit x

/-- The call read as `AddProjectile` / `DelProjectile`. -/
def BinCall.projectileCall (A : Type) : BinCall → Call A
  | .add x => Call.addProjectile x
  | .del x => Call.delProjectile x

/-- Net-positive status, in the words of the spec: the last call of the sequence
that names `x` is an Add (an Add without a later matching Del). -/
def netAdded (cs : List BinCall) (x : Nat) : Bool :=
  match (cs.filter (fun c => c.obj = x)).getLast? with
  | some c => c.isAdd
  | none => false

/-- The objects of net-positive status after the sequence. -/
def netSet (cs : List BinCall) : Finset Nat :=
  (cs.map BinCall.obj).toFinset.filter (fun x => netAdded cs x = true)

/-- What replay semantics says of a vector-bin collection `m` with counter `n` after
the calls `cs`: membership in the bin under `k` is net-positive status together
with `k` being the object's key, and the counter is the number of net-positive
objects; together with the facts that keep this true along a sequence (unique keys,
no bin holds an object twice). -/
def ReplayOk (t : Nat → Int) (cs : List BinCall) (m : AssocMap Int (List Nat)) (n : Int) : Prop :=
  AssocMap.KeysNodup m ∧ (∀ k, (binAt m k).Nodup) ∧
    (∀ x k, x ∈ binAt m k ↔ (k = t x ∧ netAdded cs x = true)) ∧ n = (netSet cs).card

/-! ## Feature bins -/

/-- The feature `f` is present in the collection: some bin has an entry for it. -/
def presentIn (bins : FeatureRenderBin A) (f : CFeature) : Bool :=
  bins.any (fun e => AssocMap.contains e.2 f)

/-- Well-formedness of a feature-bin collection under the classification `t`: keys are
unique, and every bin is non-empty, has unique keys and holds only features whose
classification key is the key of the bin. -/
def FeatOk (t : CFeature → Int) (bins : FeatureRenderBin A) : Prop :=
  AssocMap.KeysNodup bins ∧
    ∀ k fs, AssocMap.find bins k = some fs →
      fs ≠ [] ∧ AssocMap.KeysNodup fs ∧ ∀ f, AssocMap.contains fs f = true → t f = k

/-! ## Empty bins -/

/-- No key of the collection has a bin of size 0. -/
def NoEmptyBin {B : Type} (m : AssocMap Int (List B)) : Prop :=
  ∀ e ∈ m, e.2 ≠ []

/-- A classification used in the examples: every unit and projectile has key 0, a
feature has key 0 or 1 according to the parity of its address. -/
def exampleTex : TexType :=
  { unit := fun _ => 0, feature := fun f => ((f % 2 : Nat) : Int), projectile := fun _ => 0 }

/-- An example state: one unit, one live feature, one saved feature and one projectile
registered. -/
def exampleState : Renderer Nat :=
  run exampleTex (Renderer.init Nat)
    [Call.addUnit 1, Call.addFeature 4 5, Call.swapFeatures, Call.addFeature 3 6,
      Call.addProjectile 2]

/-! ## Invariants of the bins -/

/-- A vector-bin collection has unique keys and no bin holds an object twice. -/
def VecOk (m : AssocMap Int (List Nat)) : Prop :=
  AssocMap.KeysNodup m ∧ ∀ k, (binAt m k).Nodup

/-- Every object stored in the bin under `k` has classification key `k`. -/
def VecClass (t : Nat → Int) (m : AssocMap Int (List Nat)) : Prop :=
  ∀ k, ∀ x ∈ binAt m k, t x = k

/-- A feature-bin collection has unique keys and every bin has at most one entry per
feature. -/
def FeatNodup (bins : FeatureRenderBin A) : Prop :=
  AssocMap.KeysNodup bins ∧ ∀ k, AssocMap.KeysNodup (binAt bins k)

/-- The object `x` is registered in the vector-bin collection: some bin holds it. -/
def registeredIn (m : AssocMap Int (List Nat)) (x : Nat) : Bool :=
  m.any (fun e => decide (x ∈ e.2))

/-! ## Drawing -/

/-- An invocation of one of the hooks that `Draw` calls. -/
inductive Event where
  | PushRenderState
  | PopRenderState
  | DrawModelUnit (u : CUnit)
  | DrawModelFeature (f : CFeature)
  | DrawModelProjectile (p : CProjectile)
deriving DecidableEq

/-- The overload `DrawModels(const UnitSet&)`: one `DrawModel` per element. -/
def DrawModelsUnitSet (models : UnitSet) : List Event :=
  models.map Event.DrawModelUnit

/-- The overload `DrawModels(const FeatureSet&)`: one `DrawModel` per entry, on its key. -/
def DrawModelsFeatureSet (models : FeatureSet A) : List Event :=
  models.map (fun fIt => Event.DrawModelFeature fIt.1)

/-- The overload `DrawModels(const ProjectileSet&)`: one `DrawModel` per element. -/
def DrawModelsProjectileSet (models : ProjectileSet) : List Event :=
  models.map Event.DrawModelProjectile

/-- The method `IWorldObjectModelRenderer::Draw`: the state it leaves and the hook
invocations it makes, in order. The bins of a collection are visited in entry order. -/
def Draw (s : Renderer A) : Renderer A × List Event :=
  (s, [Event.PushRenderState]
        ++ s.units.flatMap (fun uIt => DrawModelsUnitSet uIt.2)
        ++ s.features.flatMap (fun fIt => DrawModelsFeatureSet fIt.2)
        ++ s.projectiles.flatMap (fun pIt => DrawModelsProjectileSet pIt.2)
        ++ [Event.PopRenderState])

/-- Position of a hook invocation in the course of one `Draw`: the push, the unit
loop, the feature loop, the projectile loop, the pop. -/
def Event.phase : Event → Nat
  | .PushRenderState => 0
  | .DrawModelUnit _ => 1
  | .DrawModelFeature _ => 2
  | .DrawModelProjectile _ => 3
  | .PopRenderState => 4

/-! ## Renderer lookup -/

/-- The model-type constants used by `GetInstance`. They are declared in a header that is
not among the sources, so they are parameters. -/
structure ModelTypeIds where
  MODELTYPE_3DO : Int
  MODELTYPE_S3O : Int
  MODELTYPE_OBJ : Int
  MODELTYPE_ASS : Int
  MODELTYPE_OTHER : Int

/-- The four case labels of the `switch` in `GetInstance` are pairwise distinct, as the
labels of a `switch` have to be. -/
def ModelTypeIds.CaseLabelsDistinct (c : ModelTypeIds) : Prop :=
  c.MODELTYPE_3DO ≠ c.MODELTYPE_S3O ∧ c.MODELTYPE_3DO ≠ c.MODELTYPE_OBJ ∧
    c.MODELTYPE_3DO ≠ c.MODELTYPE_ASS ∧ c.MODELTYPE_S3O ≠ c.MODELTYPE_OBJ ∧
    c.MODELTYPE_S3O ≠ c.MODELTYPE_ASS ∧ c.MODELTYPE_OBJ ≠ c.MODELTYPE_ASS

/-- The object that a `new` expression of `GetInstance` constructs: one of the four
derived renderers, or the base renderer with the model type given to its constructor. -/
inductive RendererObject where
  | WorldObjectModelRenderer3DO
  | WorldObjectModelRendererS3O
  | WorldObjectModelRendererOBJ
  | WorldObjectModelRendererASS
  | IWorldObjectModelRenderer (mdlType : Int)
deriving DecidableEq

/-- The function `IWorldObjectModelRenderer::GetInstance`. The result is a pointer:
`none` stands for a null pointer, and a `new` expression yields `some` object. -/
def GetInstance (c : ModelTypeIds) (modelType : Int) : Option RendererObject :=
  if modelType = c.MODELTYPE_3DO then some RendererObject.WorldObjectModelRenderer3DO
  else if modelType = c.MODELTYPE_S3O then some RendererObject.WorldObjectModelRendererS3O
  else if modelType = c.MODELTYPE_OBJ then some RendererObject.WorldObjectModelRendererOBJ
  else if modelType = c.MODELTYPE_ASS then some RendererObject.WorldObjectModelRendererASS
  else some (RendererObject.IWorldObjectModelRenderer c.MODELTYPE_OTHER)

/-- The model-type constants numbered 0 to 4, for the examples. -/
def exampleModelTypeIds : ModelTypeIds :=
  { MODELTYPE_3DO := 0, MODELTYPE_S3O := 1, MODELTYPE_OBJ := 2, MODELTYPE_ASS := 3,
    MODELTYPE_OTHER := 4 }

/-! ## Geometry buffer -/

/-- The two flags of `GL::GeometryBuffer` that `Bind` and `UnBind` read and write. -/
structure GeometryBuffer where
  dead : Bool
  bound : Bool
deriving DecidableEq

/-- The flags as the constructor `GeometryBuffer()` initialises them. -/
def GeometryBuffer.new : GeometryBuffer := { dead := false, bound := false }

/-- The method `GeometryBuffer::Bind`: `none` when `assert(!dead && !bound)` fails,
otherwise the buffer with `bound = true`. -/
def GeometryBuffer.Bind (g : GeometryBuffer) : Option GeometryBuffer :=
  if (!g.dead && !g.bound) = true then some { g with bound := true } else none

/-- The method `GeometryBuffer::UnBind`: `none` when `assert(!dead && bound)` fails,
otherwise the buffer with `bound = false`. -/
def GeometryBuffer.UnBind (g : GeometryBuffer) : Option GeometryBuffer :=
  if (!g.dead && g.bound) = true then some { g with bound := false } else none

/-- A call of `Bind` or of `UnBind`. -/
inductive BufferCall where
  | bind
  | unBind
deriving DecidableEq

/-- Effect of one call on the buffer. -/
def GeometryBuffer.call (g : GeometryBuffer) : BufferCall → Option GeometryBuffer
  | .bind => g.Bind
  | .unBind => g.UnBind

/-- Effect of a sequence of calls: `none` as soon as an assertion fails. -/
def GeometryBuffer.runCalls (g : GeometryBuffer) : List BufferCall → Option GeometryBuffer
  | [] => some g
  | c :: cs =>
    match g.call c with
    | some g1 => GeometryBuffer.runCalls g1 cs
    | none => none

/-- The calls strictly alternate beginning with `Bind`: the calls at even positions are
`Bind`, those at odd positions `UnBind`. -/
def AlternatesFromBind (cs : List BufferCall) : Prop :=
  ∀ (i : Nat) (c : BufferCall), cs[i]? = some c →
    c = if i % 2 = 0 then BufferCall.bind else BufferCall.unBind

/-- The call expected at position `i` of an assertion-free sequence that starts with the
flag `bound` equal to `b`. -/
def expectedCall (b : Bool) (i : Nat) : BufferCall :=
  if (decide (i % 2 = 0) != b) = true then BufferCall.bind else BufferCall.unBind

/-! ## A classification that changes between calls -/

/-- A second classification, read after the model of every object has changed: every
unit and projectile has key 1 and every feature key 2. -/
def rekeyedTex : TexType :=
  { unit := fun _ => 1, feature := fun _ => 2, projectile := fun _ => 1 }

/-- The state after `AddUnit(1)` read under key 0 and a second `AddUnit(1)` read under
key 1. -/
def unitAddedTwice : Renderer Nat :=
  step rekeyedTex (step exampleTex (Renderer.init Nat) (Call.addUnit 1)) (Call.addUnit 1)

/-- The state after `AddUnit(1)` read under key 0. -/
def unitAdded : Renderer Nat :=
  step exampleTex (Renderer.init Nat) (Call.addUnit 1)

/-- The state after `AddFeature(1, 5)` read under key 1. -/
def featureAdded : Renderer Nat :=
  step exampleTex (Renderer.init Nat) (Call.addFeature 1 5)

/-- An example state with three units in one bin, three projectiles in one bin, two
live features in one bin and one saved feature. -/
def exampleCrowded : Renderer Nat :=
  run exampleTex (Renderer.init Nat)
    [Call.addUnit 1, Call.addUnit 2, Call.addUnit 3, Call.addFeature 4 5, Call.swapFeatures,
      Call.addFeature 3 6, Call.addFeature 5 7, Call.addProjectile 5, Call.addProjectile 6,
      Call.addProjectile 7]

/-! ## Lemmas on keyed containers -/

namespace AssocMap

variable {K V : Type} [DecidableEq K]

theorem find_put_self (m : AssocMap K V) (k : K) (v : V) : find (put m k v) k = some v := by
  induction m with
  | nil => simp [put, find]
  | cons e r ih =>
    obtain ⟨k', v'⟩ := e
    by_cases h : k' = k <;> simp [put, find, h, ih]

theorem find_put_ne (m : AssocMap K V) {k k' : K} (v : V) (h : k' ≠ k) :
    find (put m k v) k' = find m k' := by
  induction m with
  | nil => simp [put, find, Ne.symm h]
  | cons e r ih =>
    obtain ⟨k₀, v₀⟩ := e
    by_cases h₀ : k₀ = k
    · subst h₀; simp [put, find, Ne.symm h]
    · by_cases h₁ : k₀ = k'
      · subst h₁; simp [put, find, h₀]
      · simp [put, find, h₀, h₁, ih]

theorem put_of_find {m : AssocMap K V} {k : K} {v : V} (h : find m k = some v) :
    put m k v = m := by
  induction m with
  | nil => simp [find] at h
  | cons e r ih =>
    obtain ⟨k₀, v₀⟩ := e
    by_cases h₀ : k₀ = k
    · simp [find, h₀] at h; simp [put, h₀, h]
    · simp [find, h₀] at h; simp [put, h₀, ih h]

theorem put_put (m : AssocMap K V) (k : K) (v w : V) : put (put m k v) k w = put m k w := by
  induction m with
  | nil => simp [put]
  | cons e r ih =>
    obtain ⟨k₀, v₀⟩ := e
    by_cases h₀ : k₀ = k <;> simp [put, h₀, ih]

theorem subscript_of_find {m : AssocMap K V} {k : K} {v : V} (d : V) (h : find m k = some v) :
    subscript m k d = m := by
  simp [subscript, contains, h]

theorem subscript_of_not_find {m : AssocMap K V} {k : K} (d : V) (h : find m k = none) :
    subscript m k d = put m k d := by
  simp [subscript, contains, h]

theorem find_subscript_self (m : AssocMap K V) (k : K) (d : V) :
    find (subscript m k d) k = some ((find m k).getD d) := by
  cases h : find m k with
  | none => simp [subscript_of_not_find d h, find_put_self]
  | some v => simp [subscript_of_find d h, h]

theorem find_subscript_ne (m : AssocMap K V) {k k' : K} (d : V) (h : k' ≠ k) :
    find (subscript m k d) k' = find m k' := by
  cases h' : find m k with
  | none => simp [subscript_of_not_find d h', find_put_ne _ _ h]
  | some v => simp [subscript_of_find d h']

theorem erase_put_of_not_find {m : AssocMap K V} {k : K} (v : V) (h : find m k = none) :
    erase (put m k v) k = m := by
  induction m with
  | nil => simp [put, erase]
  | cons e r ih =>
    obtain ⟨k₀, v₀⟩ := e
    by_cases h₀ : k₀ = k
    · simp [find, h₀] at h
    · simp [find, h₀] at h; simp [put, erase, h₀, ih h]

theorem erase_of_not_find {m : AssocMap K V} {k : K} (h : find m k = none) : erase m k = m := by
  induction m with
  | nil => simp [erase]
  | cons e r ih =>
    obtain ⟨k₀, v₀⟩ := e
    by_cases h₀ : k₀ = k
    · simp [find, h₀] at h
    · simp [find, h₀] at h; simp [erase, h₀, ih h]

theorem find_erase_ne (m : AssocMap K V) {k k' : K} (h : k' ≠ k) :
    find (erase m k) k' = find m k' := by
  induction m with
  | nil => simp [erase]
  | cons e r ih =>
    obtain ⟨k₀, v₀⟩ := e
    by_cases h₀ : k₀ = k
    · subst h₀; simp [erase, find, Ne.symm h]
    · by_cases h₁ : k₀ = k'
      · subst h₁; simp [erase, find, h₀]
      · simp [erase, find, h₀, h₁, ih]

theorem find_eq_none_iff (m : AssocMap K V) (k : K) : find m k = none ↔ k ∉ keys m := by
  induction m with
  | nil => simp [find, keys]
  | cons e r ih =>
    obtain ⟨k₀, v₀⟩ := e
    by_cases h₀ : k₀ = k
    · simp [find, keys, h₀]
    · simp only [keys] at ih
      simp [find, keys, h₀, ih, Ne.symm h₀]

theorem mem_of_find {m : AssocMap K V} {k : K} {v : V} (h : find m k = some v) : (k, v) ∈ m := by
  induction m with
  | nil => simp [find] at h
  | cons e r ih =>
    obtain ⟨k₀, v₀⟩ := e
    by_cases h₀ : k₀ = k
    · simp [find, h₀] at h; simp [h₀, h]
    · simp [find, h₀] at h; simp [ih h]

theorem find_of_mem {m : AssocMap K V} (hm : KeysNodup m) {k : K} {v : V} (h : (k, v) ∈ m) :
    find m k = some v := by
  induction m with
  | nil => simp at h
  | cons e r ih =>
    obtain ⟨k₀, v₀⟩ := e
    simp only [KeysNodup, keys, List.map_cons, List.nodup_cons] at hm
    rcases List.mem_cons.1 h with h | h
    · cases h; simp [find]
    · have : k₀ ≠ k := by
        rintro rfl
        exact hm.1 (List.mem_map.2 ⟨_, h, rfl⟩)
      simp [find, this, ih hm.2 h]

theorem keys_erase_sublist (m : AssocMap K V) (k : K) : (keys (erase m k)).Sublist (keys m) := by
  induction m with
  | nil => simp [erase, keys]
  | cons e r ih =>
    obtain ⟨k₀, v₀⟩ := e
    by_cases h₀ : k₀ = k
    · simp [erase, keys, h₀]
    · simp only [keys] at ih
      simp [erase, keys, h₀, ih]

theorem mem_erase_subset {m : AssocMap K V} {k : K} {e : K × V} (h : e ∈ erase m k) : e ∈ m := by
  induction m with
  | nil => simp [erase] at h
  | cons e₀ r ih =>
    obtain ⟨k₀, v₀⟩ := e₀
    by_cases h₀ : k₀ = k
    · simp [erase, h₀] at h; simp [h]
    · simp [erase, h₀] at h
      rcases h with h | h
      · simp [h]
      · simp [ih h]

theorem keys_put (m : AssocMap K V) (k : K) (v : V) :
    keys (put m k v) = if contains m k then keys m else keys m ++ [k] := by
  induction m with
  | nil => simp [put, keys, contains, find]
  | cons e r ih =>
    obtain ⟨k₀, v₀⟩ := e
    by_cases h₀ : k₀ = k
    · simp [put, keys, contains, find, h₀]
    · simp only [keys, contains] at ih
      simp only [put, keys, contains, find, h₀, if_false, List.map_cons, ih]
      split <;> simp

theorem keysNodup_put {m : AssocMap K V} (hm : KeysNodup m) (k : K) (v : V) :
    KeysNodup (put m k v) := by
  unfold KeysNodup at *
  rw [keys_put]
  split
  · exact hm
  · rename_i h
    have hk : k ∉ keys m := by
      rw [← find_eq_none_iff]
      simpa [contains] using h
    exact List.Nodup.append hm (List.nodup_singleton k) (by simpa using hk)

theorem keysNodup_subscript {m : AssocMap K V} (hm : KeysNodup m) (k : K) (d : V) :
    KeysNodup (subscript m k d) := by
  unfold subscript
  split
  · exact hm
  · exact keysNodup_put hm k d

theorem keysNodup_erase {m : AssocMap K V} (hm : KeysNodup m) (k : K) :
    KeysNodup (erase m k) :=
  List.Nodup.sublist (keys_erase_sublist m k) hm

theorem find_erase_self {m : AssocMap K V} (hm : KeysNodup m) (k : K) :
    find (erase m k) k = none := by
  induction m with
  | nil => simp [erase, find]
  | cons e r ih =>
    obtain ⟨k₀, v₀⟩ := e
    simp only [KeysNodup, keys, List.map_cons, List.nodup_cons] at hm
    by_cases h₀ : k₀ = k
    · subst h₀
      simp only [erase, if_true]
      rw [find_eq_none_iff]
      exact hm.1
    · simp [erase, find, h₀, ih hm.2]

end AssocMap

/-! ## Lemmas on vector removal and bin sizes -/

theorem set_indexOf_perm (l : List Nat) (u b : Nat) (h : u ∈ l) :
    (l.set (l.indexOf u) b).Perm (l.erase u ++ [b]) := by
  induction l with
  | nil => simp at h
  | cons x r ih =>
    by_cases hx : x = u
    · subst hx
      simp only [List.indexOf_cons_self, List.set_cons_zero, List.erase_cons_head]
      exact (List.perm_append_singleton b r).symm
    · have hr : u ∈ r := by
        rcases List.mem_cons.1 h with h | h
        · exact absurd h.symm hx
        · exact h
      rw [List.indexOf_cons_ne _ hx, List.set_cons_succ, List.erase_cons_tail (by simpa using hx)]
      exact List.Perm.cons x (ih hr)

theorem swapPop_perm (v : List Nat) (u : Nat) (h : u ∈ v) :
    (swapPop v (v.indexOf u)).Perm (v.erase u) := by
  rcases List.eq_nil_or_concat v with hv | ⟨l, b, hv⟩
  · subst hv; simp at h
  · rw [List.concat_eq_append] at hv
    subst hv
    simp only [swapPop, List.getLast?_concat]
    by_cases hl : u ∈ l
    · have hi : l.indexOf u < l.length := List.indexOf_lt_length.2 hl
      rw [List.indexOf_append_of_mem hl, List.set_append_left _ _ hi, List.dropLast_concat,
        List.erase_append_left _ hl]
      exact set_indexOf_perm l u b hl
    · have hb : u = b := by simpa [hl] using h
      subst hb
      rw [List.indexOf_append_of_not_mem hl, List.indexOf_cons_self,
        List.set_append_right _ _ (by simp), List.dropLast_append_of_ne_nil _ (by simp),
        List.erase_append_right _ hl]
      simp

theorem length_swapPop (v : List Nat) (u : Nat) (h : u ∈ v) :
    (swapPop v (v.indexOf u)).length + 1 = v.length := by
  rw [(swapPop_perm v u h).length_eq, List.length_erase_of_mem h]
  have : 0 < v.length := List.length_pos_of_mem h
  omega

theorem binAt_put_self {B : Type} (m : AssocMap Int (List B)) (k : Int) (v : List B) :
    binAt (AssocMap.put m k v) k = v := by
  simp [binAt, AssocMap.find_put_self]

theorem binAt_subscript {B : Type} (m : AssocMap Int (List B)) (k k' : Int) :
    binAt (AssocMap.subscript m k []) k' = binAt m k' := by
  by_cases h : k' = k
  · subst h; simp [binAt, AssocMap.find_subscript_self]
  · simp [binAt, AssocMap.find_subscript_ne _ _ h]

theorem totalSize_put {B : Type} (m : AssocMap Int (List B)) (k : Int) (v : List B) :
    totalSize (AssocMap.put m k v) + (binAt m k).length = totalSize m + v.length := by
  induction m with
  | nil => simp [totalSize, binAt, AssocMap.put, AssocMap.find]
  | cons e r ih =>
    obtain ⟨k₀, v₀⟩ := e
    by_cases h₀ : k₀ = k
    · simp only [totalSize, binAt, AssocMap.put, AssocMap.find, h₀, if_true, List.map_cons,
        List.sum_cons, Option.getD_some]
      push_cast
      ring
    · simp only [totalSize, binAt] at ih
      simp only [totalSize, binAt, AssocMap.put, AssocMap.find, h₀, if_false, List.map_cons,
        List.sum_cons]
      push_cast at ih ⊢
      linarith

theorem totalSize_erase {B : Type} (m : AssocMap Int (List B)) (k : Int) :
    totalSize (AssocMap.erase m k) + (binAt m k).length = totalSize m := by
  induction m with
  | nil => simp [totalSize, binAt, AssocMap.erase, AssocMap.find]
  | cons e r ih =>
    obtain ⟨k₀, v₀⟩ := e
    by_cases h₀ : k₀ = k
    · simp only [totalSize, binAt, AssocMap.erase, AssocMap.find, h₀, if_true, List.map_cons,
        List.sum_cons, Option.getD_some]
      push_cast
      ring
    · simp only [totalSize, binAt] at ih
      simp only [totalSize, binAt, AssocMap.erase, AssocMap.find, h₀, if_false, List.map_cons,
        List.sum_cons]
      push_cast at ih ⊢
      linarith

theorem totalSize_subscript {B : Type} (m : AssocMap Int (List B)) (k : Int) :
    totalSize (AssocMap.subscript m k []) = totalSize m := by
  unfold AssocMap.subscript
  split
  · rfl
  · rename_i h
    have hb : binAt m k = [] := by
      simp only [AssocMap.contains, Bool.not_eq_true, Option.not_isSome,
        Option.isNone_iff_eq_none] at h
      simp [binAt, h]
    have := totalSize_put m k []
    simp [hb] at this
    exact this

theorem length_put {V : Type} (m : AssocMap Nat V) (f : Nat) (a : V) :
    (AssocMap.put m f a).length = if AssocMap.contains m f then m.length else m.length + 1 := by
  induction m with
  | nil => simp [AssocMap.put, AssocMap.contains, AssocMap.find]
  | cons e r ih =>
    obtain ⟨k₀, v₀⟩ := e
    by_cases h₀ : k₀ = f
    · simp [AssocMap.put, AssocMap.contains, AssocMap.find, h₀]
    · simp only [AssocMap.contains] at ih
      simp only [AssocMap.put, AssocMap.contains, AssocMap.find, h₀, if_false, List.length_cons, ih]
      split <;> rfl

theorem length_erase {V : Type} (m : AssocMap Nat V) (f : Nat) :
    (AssocMap.erase m f).length + (if AssocMap.contains m f then 1 else 0) = m.length := by
  induction m with
  | nil => simp [AssocMap.erase, AssocMap.contains, AssocMap.find]
  | cons e r ih =>
    obtain ⟨k₀, v₀⟩ := e
    by_cases h₀ : k₀ = f
    · simp [AssocMap.erase, AssocMap.contains, AssocMap.find, h₀]
    · simp only [AssocMap.contains] at ih
      simp only [AssocMap.erase, AssocMap.contains, AssocMap.find, h₀, if_false,
        List.length_cons]
      omega

/-! ## Counters -/

theorem totalSize_push (m : AssocMap Int (List Nat)) (k : Int) (u : Nat) :
    totalSize (AssocMap.put (AssocMap.subscript m k []) k
      (binAt (AssocMap.subscript m k []) k ++ [u])) = totalSize m + 1 := by
  have h := totalSize_put (AssocMap.subscript m k []) k (binAt (AssocMap.subscript m k []) k ++ [u])
  rw [totalSize_subscript] at h
  simp only [List.length_append, List.length_singleton] at h
  push_cast at h
  linarith

theorem totalSize_swapPop (m : AssocMap Int (List Nat)) (k : Int) (u : Nat)
    (h : u ∈ binAt (AssocMap.subscript m k []) k) :
    totalSize (AssocMap.put (AssocMap.subscript m k []) k
      (swapPop (binAt (AssocMap.subscript m k []) k)
        ((binAt (AssocMap.subscript m k []) k).indexOf u))) + 1 = totalSize m := by
  have h1 := totalSize_put (AssocMap.subscript m k []) k
    (swapPop (binAt (AssocMap.subscript m k []) k) ((binAt (AssocMap.subscript m k []) k).indexOf u))
  have h2 := length_swapPop _ u h
  rw [totalSize_subscript] at h1
  have h3 : (((swapPop (binAt (AssocMap.subscript m k []) k)
      ((binAt (AssocMap.subscript m k []) k).indexOf u)).length : Nat) : Int) + 1
      = ((binAt (AssocMap.subscript m k []) k).length : Nat) := by exact_mod_cast h2
  linarith

theorem totalSize_erase_of_isEmpty {B : Type} (m : AssocMap Int (List B)) (k : Int)
    (h : (binAt m k).isEmpty = true) : totalSize (AssocMap.erase m k) = totalSize m := by
  have h1 := totalSize_erase m k
  rw [List.isEmpty_iff] at h
  simpa [h] using h1

theorem AddUnit_counters (t : CUnit → Int) (s : Renderer A) (u : CUnit)
    (h : s.numUnits = totalSize s.units) :
    (AddUnit t s u).numUnits = totalSize (AddUnit t s u).units := by
  unfold AddUnit
  simp only []
  split
  · simp only [totalSize_push, h]
  · simp only [totalSize_subscript, h]

theorem DelUnit_counters (t : CUnit → Int) (s : Renderer A) (u : CUnit)
    (h : s.numUnits = totalSize s.units) :
    (DelUnit t s u).numUnits = totalSize (DelUnit t s u).units := by
  unfold DelUnit
  simp only []
  by_cases hit : (binAt (AssocMap.subscript s.units (t u) []) (t u)).indexOf u
      = (binAt (AssocMap.subscript s.units (t u) []) (t u)).length
  · simp only [hit, ne_eq, not_true_eq_false, if_false]
    split
    · rename_i he
      simp only [totalSize_erase_of_isEmpty _ _ he, totalSize_subscript, h]
    · simp only [totalSize_subscript, h]
  · have hmem : u ∈ binAt (AssocMap.subscript s.units (t u) []) (t u) := by
      rw [← List.indexOf_lt_length]
      exact lt_of_le_of_ne List.indexOf_le_length hit
    have ht := totalSize_swapPop s.units (t u) u hmem
    simp only [hit, ne_eq, not_false_eq_true, if_true]
    split
    · rename_i he
      simp only [totalSize_erase_of_isEmpty _ _ he, h]
      linarith
    · simp only [h]
      linarith

theorem AddProjectile_counters (t : CProjectile → Int) (s : Renderer A) (p : CProjectile)
    (h : s.numProjectiles = totalSize s.projectiles) :
    (AddProjectile t s p).numProjectiles = totalSize (AddProjectile t s p).projectiles := by
  unfold AddProjectile
  simp only []
  split
  · simp only [totalSize_push, h]
  · simp only [totalSize_subscript, h]

theorem DelProjectile_counters (t : CProjectile → Int) (s : Renderer A) (p : CProjectile)
    (h : s.numProjectiles = totalSize s.projectiles) :
    (DelProjectile t s p).numProjectiles = totalSize (DelProjectile t s p).projectiles := by
  unfold DelProjectile
  simp only []
  split
  · rename_i hit
    have hmem : p ∈ binAt (AssocMap.subscript s.projectiles (t p) []) (t p) := by
      rw [← List.indexOf_lt_length]
      exact lt_of_le_of_ne List.indexOf_le_length hit
    have ht := totalSize_swapPop s.projectiles (t p) p hmem
    simp only [h]
    linarith
  · simp only [totalSize_subscript, h]

theorem AddFeature_counters [DecidableEq A] (t : CFeature → Int) (s : Renderer A)
    (f : CFeature) (alpha : A) (h : s.numFeatures = totalSize s.features) :
    (AddFeature t s f alpha).numFeatures = totalSize (AddFeature t s f alpha).features := by
  have hp := totalSize_put (AssocMap.subscript s.features (t f) []) (t f)
    (AssocMap.put (binAt (AssocMap.subscript s.features (t f) []) (t f)) f alpha)
  rw [totalSize_subscript, length_put] at hp
  unfold AddFeature
  simp only []
  split
  · rename_i a ha
    simp only [AssocMap.contains, ha, Option.isSome_some, if_true] at hp
    split
    · simp only [h]; linarith
    · simp only [totalSize_subscript, h]
  · rename_i ha
    simp only [AssocMap.contains, ha, Option.isSome_none, Bool.false_eq_true, if_false] at hp
    simp only [h]
    push_cast at hp
    linarith

theorem delFeatureFrom_counters (bins : FeatureRenderBin A) (num : Int) (k : Int) (f : CFeature)
    (h : num = totalSize bins) :
    (delFeatureFrom bins num k f).2 = totalSize (delFeatureFrom bins num k f).1 := by
  unfold delFeatureFrom
  split
  · rename_i fs hfs
    have hb : binAt bins k = fs := by simp [binAt, hfs]
    have hp := totalSize_put bins k (AssocMap.erase fs f)
    have hl := length_erase fs f
    rw [hb] at hp
    simp only []
    have hnum : (if AssocMap.contains fs f = true then num - 1 else num)
        = totalSize (AssocMap.put bins k (AssocMap.erase fs f)) := by
      split
      · rename_i hc
        simp only [hc, if_true] at hl
        have : (((AssocMap.erase fs f).length : Nat) : Int) + 1 = (fs.length : Nat) := by
          exact_mod_cast hl
        linarith
      · rename_i hc
        simp only [hc, Bool.false_eq_true, if_false, add_zero] at hl
        rw [hl] at hp
        linarith
    split
    · rename_i he
      rw [totalSize_erase_of_isEmpty _ _ (by rw [binAt_put_self]; exact he)]
      exact hnum
    · exact hnum
  · exact h

theorem step_counters [DecidableEq A] (t : TexType) (s : Renderer A) (c : Call A)
    (h : CountersOk s) : CountersOk (step t s c) := by
  obtain ⟨hu, hp, hf, hs⟩ := h
  cases c with
  | addUnit u =>
    refine ⟨AddUnit_counters t.unit s u hu, ?_, ?_, ?_⟩ <;>
      (simp only [step, AddUnit]; split <;> assumption)
  | delUnit u =>
    refine ⟨DelUnit_counters t.unit s u hu, ?_, ?_, ?_⟩ <;>
      (simp only [step, DelUnit]; split <;> split <;> assumption)
  | addFeature f alpha =>
    refine ⟨?_, ?_, AddFeature_counters t.feature s f alpha hf, ?_⟩ <;>
      (simp only [step, AddFeature]; split <;> [split; skip] <;> assumption)
  | delFeature f =>
    exact ⟨hu, hp, delFeatureFrom_counters _ _ _ _ hf, delFeatureFrom_counters _ _ _ _ hs⟩
  | swapFeatures => exact ⟨hu, hp, hs, hf⟩
  | addProjectile p =>
    refine ⟨?_, AddProjectile_counters t.projectile s p hp, ?_, ?_⟩ <;>
      (simp only [step, AddProjectile]; split <;> assumption)
  | delProjectile p =>
    refine ⟨?_, DelProjectile_counters t.projectile s p hp, ?_, ?_⟩ <;>
      (simp only [step, DelProjectile]; split <;> assumption)

/-! ## The operations in terms of `pushBin`, `popBin` and `pruneBin` -/

theorem AddUnit_units (t : CUnit → Int) (s : Renderer A) (u : CUnit) :
    (AddUnit t s u).units = pushBin s.units (t u) u := by
  unfold AddUnit pushBin
  simp only []
  split <;> rfl

theorem AddUnit_numUnits (t : CUnit → Int) (s : Renderer A) (u : CUnit) :
    (AddUnit t s u).numUnits = if u ∈ binAt s.units (t u) then s.numUnits else s.numUnits + 1 := by
  unfold AddUnit
  simp only [binAt_subscript, List.indexOf_eq_length]
  split <;> simp_all

theorem DelUnit_units (t : CUnit → Int) (s : Renderer A) (u : CUnit) :
    (DelUnit t s u).units = pruneBin (popBin s.units (t u) u) (t u) := by
  unfold DelUnit pruneBin popBin
  simp only []
  split <;> split <;> rfl

theorem DelUnit_numUnits (t : CUnit → Int) (s : Renderer A) (u : CUnit) :
    (DelUnit t s u).numUnits = if u ∈ binAt s.units (t u) then s.numUnits - 1 else s.numUnits := by
  unfold DelUnit
  simp only [binAt_subscript, ne_eq, List.indexOf_eq_length, not_not]
  split <;> split <;> simp_all

theorem AddProjectile_projectiles (t : CProjectile → Int) (s : Renderer A) (p : CProjectile) :
    (AddProjectile t s p).projectiles = pushBin s.projectiles (t p) p := by
  unfold AddProjectile pushBin
  simp only []
  split <;> rfl

theorem AddProjectile_numProjectiles (t : CProjectile → Int) (s : Renderer A) (p : CProjectile) :
    (AddProjectile t s p).numProjectiles
      = if p ∈ binAt s.projectiles (t p) then s.numProjectiles else s.numProjectiles + 1 := by
  unfold AddProjectile
  simp only [binAt_subscript, List.indexOf_eq_length]
  split <;> simp_all

theorem DelProjectile_projectiles (t : CProjectile → Int) (s : Renderer A) (p : CProjectile) :
    (DelProjectile t s p).projectiles = popBin s.projectiles (t p) p := by
  unfold DelProjectile popBin
  simp only []
  split <;> rfl

theorem DelProjectile_numProjectiles (t : CProjectile → Int) (s : Renderer A) (p : CProjectile) :
    (DelProjectile t s p).numProjectiles
      = if p ∈ binAt s.projectiles (t p) then s.numProjectiles - 1 else s.numProjectiles := by
  unfold DelProjectile
  simp only [binAt_subscript, ne_eq, List.indexOf_eq_length, not_not]
  split <;> simp_all

theorem binAt_put_ne {B : Type} (m : AssocMap Int (List B)) {k k' : Int} (v : List B)
    (h : k' ≠ k) : binAt (AssocMap.put m k v) k' = binAt m k' := by
  simp [binAt, AssocMap.find_put_ne _ _ h]

theorem binAt_pushBin (m : AssocMap Int (List Nat)) (k k' : Int) (x : Nat) :
    binAt (pushBin m k x) k'
      = if k' = k then (if x ∈ binAt m k then binAt m k else binAt m k ++ [x])
        else binAt m k' := by
  unfold pushBin
  simp only [binAt_subscript, List.indexOf_eq_length]
  by_cases hk : k' = k
  · subst hk
    by_cases hx : x ∈ binAt m k' <;> simp [hx, binAt_put_self, binAt_subscript]
  · by_cases hx : x ∈ binAt m k <;> simp [hx, hk, binAt_put_ne, binAt_subscript]

theorem binAt_popBin (m : AssocMap Int (List Nat)) (k k' : Int) (x : Nat) :
    binAt (popBin m k x) k'
      = if k' = k then
          (if x ∈ binAt m k then swapPop (binAt m k) ((binAt m k).indexOf x) else binAt m k)
        else binAt m k' := by
  unfold popBin
  simp only [binAt_subscript, ne_eq, List.indexOf_eq_length, not_not]
  by_cases hk : k' = k
  · subst hk
    by_cases hx : x ∈ binAt m k' <;> simp [hx, binAt_put_self, binAt_subscript]
  · by_cases hx : x ∈ binAt m k <;> simp [hx, hk, binAt_put_ne, binAt_subscript]

theorem binAt_pruneBin {B : Type} {m : AssocMap Int (List B)} (hm : AssocMap.KeysNodup m)
    (k k' : Int) : binAt (pruneBin m k) k' = binAt m k' := by
  unfold pruneBin
  split
  · rename_i he
    by_cases hk : k' = k
    · subst hk
      rw [List.isEmpty_iff] at he
      rw [he]
      simp [binAt, AssocMap.find_erase_self hm]
    · simp [binAt, AssocMap.find_erase_ne _ hk]
  · rfl

theorem keysNodup_pushBin {m : AssocMap Int (List Nat)} (hm : AssocMap.KeysNodup m)
    (k : Int) (x : Nat) : AssocMap.KeysNodup (pushBin m k x) := by
  unfold pushBin
  split
  · exact AssocMap.keysNodup_put (AssocMap.keysNodup_subscript hm _ _) _ _
  · exact AssocMap.keysNodup_subscript hm _ _

theorem keysNodup_popBin {m : AssocMap Int (List Nat)} (hm : AssocMap.KeysNodup m)
    (k : Int) (x : Nat) : AssocMap.KeysNodup (popBin m k x) := by
  unfold popBin
  split
  · exact AssocMap.keysNodup_put (AssocMap.keysNodup_subscript hm _ _) _ _
  · exact AssocMap.keysNodup_subscript hm _ _

theorem keysNodup_pruneBin {B : Type} {m : AssocMap Int (List B)} (hm : AssocMap.KeysNodup m)
    (k : Int) : AssocMap.KeysNodup (pruneBin m k) := by
  unfold pruneBin
  split
  · exact AssocMap.keysNodup_erase hm _
  · exact hm

/-! ## Replay lemmas -/

theorem netAdded_append (cs : List BinCall) (c : BinCall) (x : Nat) :
    netAdded (cs ++ [c]) x = if c.obj = x then c.isAdd else netAdded cs x := by
  unfold netAdded
  rw [List.filter_append]
  by_cases h : c.obj = x
  · simp [h, List.getLast?_concat]
  · simp [h]

theorem mem_map_obj_of_netAdded {cs : List BinCall} {x : Nat} (h : netAdded cs x = true) :
    x ∈ cs.map BinCall.obj := by
  by_contra hx
  have : cs.filter (fun c => c.obj = x) = [] := by
    rw [List.filter_eq_nil_iff]
    intro c hc hcx
    exact hx (List.mem_map.2 ⟨c, hc, by simpa using hcx⟩)
  simp [netAdded, this] at h

theorem mem_netSet (cs : List BinCall) (x : Nat) : x ∈ netSet cs ↔ netAdded cs x = true := by
  unfold netSet
  rw [Finset.mem_filter, List.mem_toFinset]
  exact ⟨fun h => h.2, fun h => ⟨mem_map_obj_of_netAdded h, h⟩⟩

theorem netSet_append_add (cs : List BinCall) (x : Nat) :
    netSet (cs ++ [BinCall.add x]) = insert x (netSet cs) := by
  ext v
  rw [mem_netSet, netAdded_append, Finset.mem_insert, mem_netSet]
  by_cases h : x = v
  · subst h; simp [BinCall.obj, BinCall.isAdd]
  · simp [BinCall.obj, BinCall.isAdd, h, Ne.symm h]

theorem netSet_append_del (cs : List BinCall) (x : Nat) :
    netSet (cs ++ [BinCall.del x]) = (netSet cs).erase x := by
  ext v
  rw [mem_netSet, netAdded_append, Finset.mem_erase, mem_netSet]
  by_cases h : x = v
  · subst h; simp [BinCall.obj, BinCall.isAdd]
  · simp [BinCall.obj, BinCall.isAdd, h, Ne.symm h]

theorem replayOk_push {t : Nat → Int} {cs : List BinCall} {m : AssocMap Int (List Nat)} {n : Int}
    (h : ReplayOk t cs m n) (x : Nat) :
    ReplayOk t (cs ++ [BinCall.add x]) (pushBin m (t x) x)
      (if x ∈ binAt m (t x) then n else n + 1) := by
  obtain ⟨hk, hn, hmem, hcnt⟩ := h
  have hx : x ∈ binAt m (t x) ↔ netAdded cs x = true := by simp [hmem]
  refine ⟨keysNodup_pushBin hk _ _, ?_, ?_, ?_⟩
  · intro k
    rw [binAt_pushBin]
    split
    · rename_i hkk
      subst hkk
      split
      · exact hn _
      · rename_i hx'
        exact List.Nodup.append (hn _) (List.nodup_singleton x) (by simpa using hx')
    · exact hn _
  · intro y k
    rw [binAt_pushBin, netAdded_append]
    simp only [BinCall.obj, BinCall.isAdd]
    by_cases hyx : x = y
    · subst hyx
      by_cases hkk : k = t x
      · subst hkk
        by_cases hin : x ∈ binAt m (t x) <;> simp [hin]
      · simp [hkk, hmem]
    · by_cases hkk : k = t x
      · subst hkk
        by_cases hin : x ∈ binAt m (t x)
        · simp [hin, hyx, hmem]
        · simp [hin, hyx, hmem, Ne.symm hyx]
      · simp [hkk, hyx, hmem]
  · rw [netSet_append_add]
    by_cases hin : x ∈ binAt m (t x)
    · have : x ∈ netSet cs := (mem_netSet cs x).2 (hx.1 hin)
      simp [hin, Finset.insert_eq_of_mem this, hcnt]
    · have : x ∉ netSet cs := fun h' => hin (hx.2 ((mem_netSet cs x).1 h'))
      simp [hin, Finset.card_insert_of_not_mem this, hcnt]

theorem replayOk_pop {t : Nat → Int} {cs : List BinCall} {m : AssocMap Int (List Nat)} {n : Int}
    (h : ReplayOk t cs m n) (x : Nat) :
    ReplayOk t (cs ++ [BinCall.del x]) (popBin m (t x) x)
      (if x ∈ binAt m (t x) then n - 1 else n) := by
  obtain ⟨hk, hn, hmem, hcnt⟩ := h
  have hx : x ∈ binAt m (t x) ↔ netAdded cs x = true := by simp [hmem]
  refine ⟨keysNodup_popBin hk _ _, ?_, ?_, ?_⟩
  · intro k
    rw [binAt_popBin]
    split
    · rename_i hkk
      subst hkk
      split
      · rename_i hx'
        exact (swapPop_perm _ _ hx').nodup_iff.2 ((hn _).erase x)
      · exact hn _
    · exact hn _
  · intro y k
    rw [binAt_popBin, netAdded_append]
    simp only [BinCall.obj, BinCall.isAdd]
    by_cases hkk : k = t x
    · subst hkk
      by_cases hin : x ∈ binAt m (t x)
      · simp only [if_true, hin, (swapPop_perm _ _ hin).mem_iff, (hn (t x)).mem_erase_iff]
        by_cases hyx : x = y
        · subst hyx; simp
        · simp [hyx, hmem, Ne.symm hyx]
      · by_cases hyx : x = y
        · subst hyx; simp [hin]
        · simp [hin, hyx, hmem]
    · by_cases hyx : x = y
      · subst hyx; simp [hkk, hmem]
      · simp [hkk, hyx, hmem]
  · rw [netSet_append_del]
    by_cases hin : x ∈ binAt m (t x)
    · have : x ∈ netSet cs := (mem_netSet cs x).2 (hx.1 hin)
      have hpos : 0 < (netSet cs).card := Finset.card_pos.2 ⟨x, this⟩
      simp only [hin, if_true, Finset.card_erase_of_mem this, hcnt]
      omega
    · have : x ∉ netSet cs := fun h' => hin (hx.2 ((mem_netSet cs x).1 h'))
      simp [hin, Finset.erase_eq_of_not_mem this, hcnt]

theorem replayOk_prune {t : Nat → Int} {cs : List BinCall} {m : AssocMap Int (List Nat)} {n : Int}
    (h : ReplayOk t cs m n) (k : Int) : ReplayOk t cs (pruneBin m k) n := by
  obtain ⟨hk, hn, hmem, hcnt⟩ := h
  refine ⟨keysNodup_pruneBin hk _, ?_, ?_, hcnt⟩
  · intro k'
    rw [binAt_pruneBin hk]
    exact hn k'
  · intro x k'
    rw [binAt_pruneBin hk]
    exact hmem x k'

theorem run_append [DecidableEq A] (t : TexType) (s : Renderer A) (cs : List (Call A))
    (c : Call A) : run t s (cs ++ [c]) = step t (run t s cs) c := by
  simp [run, List.foldl_append]

theorem replayOk_units [DecidableEq A] (t : TexType) (cs : List BinCall) :
    ReplayOk t.unit cs (run t (Renderer.init A) (cs.map (BinCall.unitCall A))).units
      (run t (Renderer.init A) (cs.map (BinCall.unitCall A))).numUnits := by
  induction cs using List.reverseRecOn with
  | nil =>
    refine ⟨by simp [run, Renderer.init, AssocMap.KeysNodup, AssocMap.keys], ?_, ?_, ?_⟩
    · intro k; simp [run, Renderer.init, binAt, AssocMap.find]
    · intro x k; simp [run, Renderer.init, binAt, AssocMap.find, netAdded]
    · simp [run, Renderer.init, netSet]
  | append_singleton cs c ih =>
    rw [List.map_append, List.map_singleton, run_append]
    cases c with
    | add x =>
      simp only [BinCall.unitCall, step, AddUnit_units, AddUnit_numUnits]
      exact replayOk_push ih x
    | del x =>
      simp only [BinCall.unitCall, step, DelUnit_units, DelUnit_numUnits]
      exact replayOk_prune (replayOk_pop ih x) _

theorem replayOk_projectiles [DecidableEq A] (t : TexType) (cs : List BinCall) :
    ReplayOk t.projectile cs
      (run t (Renderer.init A) (cs.map (BinCall.projectileCall A))).projectiles
      (run t (Renderer.init A) (cs.map (BinCall.projectileCall A))).numProjectiles := by
  induction cs using List.reverseRecOn with
  | nil =>
    refine ⟨by simp [run, Renderer.init, AssocMap.KeysNodup, AssocMap.keys], ?_, ?_, ?_⟩
    · intro k; simp [run, Renderer.init, binAt, AssocMap.find]
    · intro x k; simp [run, Renderer.init, binAt, AssocMap.find, netAdded]
    · simp [run, Renderer.init, netSet]
  | append_singleton cs c ih =>
    rw [List.map_append, List.map_singleton, run_append]
    cases c with
    | add x =>
      simp only [BinCall.projectileCall, step, AddProjectile_projectiles,
        AddProjectile_numProjectiles]
      exact replayOk_push ih x
    | del x =>
      simp only [BinCall.projectileCall, step, DelProjectile_projectiles,
        DelProjectile_numProjectiles]
      exact replayOk_pop ih x

/-! ## Feature-bin lemmas -/

theorem AssocMap.find_put {K V : Type} [DecidableEq K] (m : AssocMap K V) (k k' : K) (v : V) :
    AssocMap.find (AssocMap.put m k v) k' = if k' = k then some v else AssocMap.find m k' := by
  by_cases h : k' = k
  · subst h; simp [AssocMap.find_put_self]
  · simp [h, AssocMap.find_put_ne _ _ h]

theorem AssocMap.find_erase {K V : Type} [DecidableEq K] {m : AssocMap K V}
    (hm : AssocMap.KeysNodup m) (k k' : K) :
    AssocMap.find (AssocMap.erase m k) k' = if k' = k then none else AssocMap.find m k' := by
  by_cases h : k' = k
  · subst h; simp [AssocMap.find_erase_self hm]
  · simp [h, AssocMap.find_erase_ne _ h]

theorem AssocMap.put_subscript {K V : Type} [DecidableEq K] (m : AssocMap K V) (k : K) (d v : V) :
    AssocMap.put (AssocMap.subscript m k d) k v = AssocMap.put m k v := by
  unfold AssocMap.subscript
  split
  · rfl
  · exact AssocMap.put_put m k d v

theorem AssocMap.put_ne_nil {K V : Type} [DecidableEq K] (m : AssocMap K V) (k : K) (v : V) :
    AssocMap.put m k v ≠ [] := by
  cases m with
  | nil => simp [AssocMap.put]
  | cons e r =>
    obtain ⟨k₀, v₀⟩ := e
    by_cases h₀ : k₀ = k <;> simp [AssocMap.put, h₀]

theorem find_of_binAt_ne_nil {B : Type} {m : AssocMap Int (List B)} {k : Int}
    (h : binAt m k ≠ []) : AssocMap.find m k = some (binAt m k) := by
  cases hf : AssocMap.find m k with
  | none => simp [binAt, hf] at h
  | some v => simp [binAt, hf]

theorem binAt_ne_nil_of_contains {m : FeatureRenderBin A} {k : Int} {f : CFeature}
    (h : AssocMap.contains (binAt m k) f = true) : binAt m k ≠ [] := by
  intro he
  simp [he, AssocMap.contains, AssocMap.find] at h

theorem presentIn_iff {bins : FeatureRenderBin A} (hb : AssocMap.KeysNodup bins) (f : CFeature) :
    presentIn bins f = true ↔
      ∃ k fs, AssocMap.find bins k = some fs ∧ AssocMap.contains fs f = true := by
  unfold presentIn
  rw [List.any_eq_true]
  constructor
  · rintro ⟨⟨k, fs⟩, he, hc⟩
    exact ⟨k, fs, AssocMap.find_of_mem hb he, hc⟩
  · rintro ⟨k, fs, hfind, hc⟩
    exact ⟨(k, fs), AssocMap.mem_of_find hfind, hc⟩

theorem AddFeature_features [DecidableEq A] (t : CFeature → Int) (s : Renderer A)
    (f : CFeature) (alpha : A) :
    (AddFeature t s f alpha).features
      = AssocMap.put s.features (t f) (AssocMap.put (binAt s.features (t f)) f alpha) := by
  unfold AddFeature
  simp only [binAt_subscript, AssocMap.put_subscript]
  split
  · rename_i a ha
    split
    · rfl
    · rename_i hne
      have ha' : a = alpha := by simpa using hne
      subst ha'
      have hc : AssocMap.contains (binAt s.features (t f)) f = true := by
        simp [AssocMap.contains, ha]
      have hfind := find_of_binAt_ne_nil (binAt_ne_nil_of_contains hc)
      simp only [AssocMap.put_of_find ha, AssocMap.put_of_find hfind,
        AssocMap.subscript_of_find _ hfind]
  · rfl

theorem AddFeature_numFeatures [DecidableEq A] (t : CFeature → Int) (s : Renderer A)
    (f : CFeature) (alpha : A) :
    (AddFeature t s f alpha).numFeatures
      = if AssocMap.contains (binAt s.features (t f)) f = true then s.numFeatures
        else s.numFeatures + 1 := by
  unfold AddFeature
  simp only [binAt_subscript]
  split
  · rename_i a ha
    simp only [AssocMap.contains, ha, Option.isSome_some, if_true]
    split <;> rfl
  · rename_i ha
    simp [AssocMap.contains, ha]

theorem featOk_put {t : CFeature → Int} {bins : FeatureRenderBin A} (hb : FeatOk t bins)
    (k : Int) (v : FeatureSet A) (hv : v ≠ []) (hn : AssocMap.KeysNodup v)
    (hc : ∀ f, AssocMap.contains v f = true → t f = k) :
    FeatOk t (AssocMap.put bins k v) := by
  refine ⟨AssocMap.keysNodup_put hb.1 _ _, ?_⟩
  intro k' fs hfind
  rw [AssocMap.find_put] at hfind
  split at hfind
  · rename_i hk
    subst hk
    cases hfind
    exact ⟨hv, hn, hc⟩
  · exact hb.2 k' fs hfind

theorem featOk_erase_put {t : CFeature → Int} {bins : FeatureRenderBin A} (hb : FeatOk t bins)
    (k : Int) (v : FeatureSet A) : FeatOk t (AssocMap.erase (AssocMap.put bins k v) k) := by
  have hp := AssocMap.keysNodup_put hb.1 k v
  refine ⟨AssocMap.keysNodup_erase hp _, ?_⟩
  intro k' fs hfind
  rw [AssocMap.find_erase hp] at hfind
  split at hfind
  · cases hfind
  · rename_i hk
    rw [AssocMap.find_put_ne _ _ hk] at hfind
    exact hb.2 k' fs hfind

theorem contains_erase_imp {V : Type} (fs : AssocMap Nat V) (f f' : Nat)
    (h : AssocMap.contains (AssocMap.erase fs f) f' = true) : AssocMap.contains fs f' = true := by
  by_cases hf : f' = f
  · subst hf
    by_contra hc
    have hnone : AssocMap.find fs f' = none := by simpa [AssocMap.contains] using hc
    rw [AssocMap.erase_of_not_find hnone] at h
    exact hc h
  · simpa [AssocMap.contains, AssocMap.find_erase_ne _ hf] using h

theorem featOk_delFeatureFrom {t : CFeature → Int} {bins : FeatureRenderBin A}
    (hb : FeatOk t bins) (num : Int) (k : Int) (f : CFeature) :
    FeatOk t (delFeatureFrom bins num k f).1 := by
  unfold delFeatureFrom
  split
  · rename_i fs hfs
    simp only []
    split
    · exact featOk_erase_put hb _ _
    · rename_i he
      obtain ⟨_, hn, hc⟩ := hb.2 k fs hfs
      refine featOk_put hb _ _ ?_ (AssocMap.keysNodup_erase hn _) ?_
      · intro h0
        exact he (by simp [h0])
      · intro f' hf'
        exact hc f' (contains_erase_imp fs f f' hf')
  · exact hb

theorem featOk_AddFeature [DecidableEq A] {t : CFeature → Int} {s : Renderer A}
    (hb : FeatOk t s.features) (f : CFeature) (alpha : A) :
    FeatOk t (AddFeature t s f alpha).features := by
  rw [AddFeature_features]
  have hbin : AssocMap.KeysNodup (binAt s.features (t f)) ∧
      ∀ f', AssocMap.contains (binAt s.features (t f)) f' = true → t f' = t f := by
    cases hfind : AssocMap.find s.features (t f) with
    | none =>
      simp [binAt, hfind, AssocMap.KeysNodup, AssocMap.keys, AssocMap.contains, AssocMap.find]
    | some fs =>
      obtain ⟨_, hn, hc⟩ := hb.2 _ fs hfind
      simpa [binAt, hfind] using And.intro hn hc
  refine featOk_put hb _ _ (AssocMap.put_ne_nil _ _ _) (AssocMap.keysNodup_put hbin.1 _ _) ?_
  intro f' hf'
  simp only [AssocMap.contains, AssocMap.find_put] at hf'
  split at hf'
  · rename_i h; rw [h]
  · exact hbin.2 f' hf'

theorem featOk_step [DecidableEq A] (t : TexType) (s : Renderer A) (c : Call A)
    (h : FeatOk t.feature s.features ∧ FeatOk t.feature s.featuresSave) :
    FeatOk t.feature (step t s c).features ∧ FeatOk t.feature (step t s c).featuresSave := by
  cases c with
  | addUnit u => simp only [step, AddUnit]; split <;> exact h
  | delUnit u => simp only [step, DelUnit]; split <;> split <;> exact h
  | addFeature f alpha =>
    refine ⟨featOk_AddFeature h.1 f alpha, ?_⟩
    simp only [step, AddFeature]
    split <;> [split; skip] <;> exact h.2
  | delFeature f =>
    exact ⟨featOk_delFeatureFrom h.1 _ _ _, featOk_delFeatureFrom h.2 _ _ _⟩
  | swapFeatures => exact ⟨h.2, h.1⟩
  | addProjectile p => simp only [step, AddProjectile]; split <;> exact h
  | delProjectile p => simp only [step, DelProjectile]; split <;> exact h

theorem featOk_of_reachableFixed [DecidableEq A] {t : TexType} {s : Renderer A}
    (h : ReachableFixed t s) :
    FeatOk t.feature s.features ∧ FeatOk t.feature s.featuresSave := by
  induction h with
  | init =>
    constructor <;>
      exact ⟨by simp [Renderer.init, AssocMap.KeysNodup, AssocMap.keys],
        by intro k fs hf; simp [Renderer.init, AssocMap.find] at hf⟩
  | step c _ ih => exact featOk_step t _ c ih

/-! ## Frame and no-op lemmas -/

theorem AssocMap.mem_put_cases {K V : Type} [DecidableEq K] {m : AssocMap K V} {k : K} {v : V}
    {e : K × V} (h : e ∈ AssocMap.put m k v) : e = (k, v) ∨ e ∈ m := by
  induction m with
  | nil => simpa [AssocMap.put] using h
  | cons e₀ r ih =>
    obtain ⟨k₀, v₀⟩ := e₀
    by_cases h₀ : k₀ = k
    · simp only [AssocMap.put, h₀, if_true, List.mem_cons] at h
      rcases h with h | h
      · exact Or.inl h
      · exact Or.inr (List.mem_cons_of_mem _ h)
    · simp only [AssocMap.put, h₀, if_false, List.mem_cons] at h
      rcases h with h | h
      · exact Or.inr (by simp [h])
      · rcases ih h with h | h
        · exact Or.inl h
        · exact Or.inr (List.mem_cons_of_mem _ h)

theorem AssocMap.erase_put {K V : Type} [DecidableEq K] (m : AssocMap K V) (k : K) (v : V) :
    AssocMap.erase (AssocMap.put m k v) k = AssocMap.erase m k := by
  induction m with
  | nil => simp [AssocMap.put, AssocMap.erase]
  | cons e r ih =>
    obtain ⟨k₀, v₀⟩ := e
    by_cases h₀ : k₀ = k <;> simp [AssocMap.put, AssocMap.erase, h₀, ih]

theorem subscript_of_binAt_ne_nil {B : Type} {m : AssocMap Int (List B)} {k : Int}
    (h : binAt m k ≠ []) : AssocMap.subscript m k [] = m :=
  AssocMap.subscript_of_find _ (find_of_binAt_ne_nil h)

theorem pushBin_of_mem {m : AssocMap Int (List Nat)} {k : Int} {x : Nat}
    (h : x ∈ binAt m k) : pushBin m k x = m := by
  unfold pushBin
  have hne : binAt m k ≠ [] := List.ne_nil_of_mem h
  simp only [binAt_subscript, List.indexOf_eq_length]
  simp [h, subscript_of_binAt_ne_nil hne]

theorem pushBin_of_not_mem {m : AssocMap Int (List Nat)} {k : Int} {x : Nat}
    (h : x ∉ binAt m k) : pushBin m k x = AssocMap.put m k (binAt m k ++ [x]) := by
  unfold pushBin
  simp only [binAt_subscript, List.indexOf_eq_length, AssocMap.put_subscript]
  simp [h]

theorem popBin_of_not_mem {m : AssocMap Int (List Nat)} {k : Int} {x : Nat}
    (h : x ∉ binAt m k) : popBin m k x = AssocMap.subscript m k [] := by
  unfold popBin
  simp only [binAt_subscript, ne_eq, List.indexOf_eq_length, not_not]
  simp [h]

theorem popBin_of_mem {m : AssocMap Int (List Nat)} {k : Int} {x : Nat}
    (h : x ∈ binAt m k) :
    popBin m k x = AssocMap.put m k (swapPop (binAt m k) ((binAt m k).indexOf x)) := by
  unfold popBin
  simp only [binAt_subscript, ne_eq, List.indexOf_eq_length, not_not, AssocMap.put_subscript]
  simp [h]

theorem pruneBin_subscript {B : Type} {m : AssocMap Int (List B)} (hm : NoEmptyBin m) (k : Int) :
    pruneBin (AssocMap.subscript m k []) k = m := by
  unfold pruneBin
  rw [binAt_subscript]
  cases hf : AssocMap.find m k with
  | none =>
    have hb : binAt m k = [] := by simp [binAt, hf]
    simp [hb, AssocMap.subscript_of_not_find _ hf, AssocMap.erase_put_of_not_find _ hf]
  | some v =>
    have hv : v ≠ [] := hm _ (AssocMap.mem_of_find hf)
    have hb : binAt m k = v := by simp [binAt, hf]
    have : v.isEmpty = false := by
      cases v with
      | nil => exact absurd rfl hv
      | cons _ _ => rfl
    simp [hb, this, AssocMap.subscript_of_find _ hf]

theorem AddUnit_eq (t : CUnit → Int) (s : Renderer A) (u : CUnit) :
    AddUnit t s u
      = { s with units := (AddUnit t s u).units, numUnits := (AddUnit t s u).numUnits } := by
  unfold AddUnit
  simp only []
  split <;> rfl

theorem DelUnit_eq (t : CUnit → Int) (s : Renderer A) (u : CUnit) :
    DelUnit t s u
      = { s with units := (DelUnit t s u).units, numUnits := (DelUnit t s u).numUnits } := by
  unfold DelUnit
  simp only []
  split <;> split <;> rfl

theorem AddProjectile_eq (t : CProjectile → Int) (s : Renderer A) (p : CProjectile) :
    AddProjectile t s p
      = { s with projectiles := (AddProjectile t s p).projectiles,
                 numProjectiles := (AddProjectile t s p).numProjectiles } := by
  unfold AddProjectile
  simp only []
  split <;> rfl

theorem noEmptyBin_pushBin {m : AssocMap Int (List Nat)} (hm : NoEmptyBin m) (k : Int) (x : Nat) :
    NoEmptyBin (pushBin m k x) := by
  by_cases hx : x ∈ binAt m k
  · rw [pushBin_of_mem hx]; exact hm
  · rw [pushBin_of_not_mem hx]
    intro e he
    rcases AssocMap.mem_put_cases he with h | h
    · subst h; simp
    · exact hm e h

theorem noEmptyBin_prune_popBin {m : AssocMap Int (List Nat)} (hm : NoEmptyBin m) (k : Int)
    (x : Nat) : NoEmptyBin (pruneBin (popBin m k x) k) := by
  by_cases hx : x ∈ binAt m k
  · rw [popBin_of_mem hx]
    unfold pruneBin
    rw [binAt_put_self]
    split
    · rw [AssocMap.erase_put]
      intro e he
      exact hm e (AssocMap.mem_erase_subset he)
    · rename_i hne
      intro e he
      rcases AssocMap.mem_put_cases he with h | h
      · subst h
        intro h0
        have h1 : swapPop (binAt m k) ((binAt m k).indexOf x) = [] := h0
        exact hne (by rw [h1]; rfl)
      · exact hm e h
  · rw [popBin_of_not_mem hx, pruneBin_subscript hm]
    exact hm

theorem noEmptyBin_units_step [DecidableEq A] (t : TexType) (s : Renderer A) (c : Call A)
    (h : NoEmptyBin s.units) : NoEmptyBin (step t s c).units := by
  cases c with
  | addUnit u => simp only [step, AddUnit_units]; exact noEmptyBin_pushBin h _ _
  | delUnit u => simp only [step, DelUnit_units]; exact noEmptyBin_prune_popBin h _ _
  | addFeature f alpha => simp only [step, AddFeature]; split <;> [split; skip] <;> exact h
  | delFeature f => exact h
  | swapFeatures => exact h
  | addProjectile p => simp only [step, AddProjectile]; split <;> exact h
  | delProjectile p => simp only [step, DelProjectile]; split <;> exact h

theorem noEmptyBin_units_of_reachable [DecidableEq A] {s : Renderer A} (h : Reachable s) :
    NoEmptyBin s.units := by
  induction h with
  | init => intro e he; simp [Renderer.init] at he
  | step t c _ ih => exact noEmptyBin_units_step t _ c ih

theorem reachable_run_from [DecidableEq A] (t : TexType) (cs : List (Call A)) :
    ∀ s : Renderer A, Reachable s → Reachable (run t s cs) := by
  induction cs with
  | nil => intro s hs; exact hs
  | cons c cs ih => intro s hs; exact ih _ (Reachable.step t c hs)

theorem reachable_run [DecidableEq A] (t : TexType) (cs : List (Call A)) :
    Reachable (run t (Renderer.init A) cs) :=
  reachable_run_from t cs _ Reachable.init

theorem reachableFixed_run_from [DecidableEq A] (t : TexType) (cs : List (Call A)) :
    ∀ s : Renderer A, ReachableFixed t s → ReachableFixed t (run t s cs) := by
  induction cs with
  | nil => intro s hs; exact hs
  | cons c cs ih => intro s hs; exact ih _ (ReachableFixed.step c hs)

theorem reachableFixed_run [DecidableEq A] (t : TexType) (cs : List (Call A)) :
    ReachableFixed t (run t (Renderer.init A) cs) :=
  reachableFixed_run_from t cs _ ReachableFixed.init

theorem not_mem_binAt_of_forall {m : AssocMap Int (List Nat)} {x : Nat}
    (h : ∀ e ∈ m, x ∉ e.2) (k : Int) : x ∉ binAt m k := by
  cases hf : AssocMap.find m k with
  | none => simp [binAt, hf]
  | some v =>
    have := h _ (AssocMap.mem_of_find hf)
    simpa [binAt, hf] using this

/-! ## Invariants of the bins: lemmas -/

theorem binAt_put {B : Type} (m : AssocMap Int (List B)) (k k' : Int) (v : List B) :
    binAt (AssocMap.put m k v) k' = if k' = k then v else binAt m k' := by
  by_cases h : k' = k
  · subst h; simp [binAt_put_self]
  · simp [h, binAt_put_ne _ _ h]

theorem binAt_of_mem {B : Type} {m : AssocMap Int (List B)} (hm : AssocMap.KeysNodup m)
    {e : Int × List B} (he : e ∈ m) : binAt m e.1 = e.2 := by
  obtain ⟨k, v⟩ := e
  simp [binAt, AssocMap.find_of_mem hm he]

theorem mem_of_binAt_ne_nil {B : Type} {m : AssocMap Int (List B)} {k : Int}
    (h : binAt m k ≠ []) : (k, binAt m k) ∈ m :=
  AssocMap.mem_of_find (find_of_binAt_ne_nil h)

theorem mem_swapPop {v : List Nat} {x y : Nat} (hx : x ∈ v)
    (hy : y ∈ swapPop v (v.indexOf x)) : y ∈ v :=
  List.mem_of_mem_erase ((swapPop_perm v x hx).mem_iff.1 hy)

theorem vecOk_pushBin {m : AssocMap Int (List Nat)} (h : VecOk m) (k : Int) (x : Nat) :
    VecOk (pushBin m k x) := by
  refine ⟨keysNodup_pushBin h.1 _ _, ?_⟩
  intro k'
  rw [binAt_pushBin]
  split
  · split
    · exact h.2 _
    · rename_i hx
      exact List.Nodup.append (h.2 _) (List.nodup_singleton x) (by simpa using hx)
  · exact h.2 _

theorem vecOk_popBin {m : AssocMap Int (List Nat)} (h : VecOk m) (k : Int) (x : Nat) :
    VecOk (popBin m k x) := by
  refine ⟨keysNodup_popBin h.1 _ _, ?_⟩
  intro k'
  rw [binAt_popBin]
  split
  · split
    · rename_i hx
      exact (swapPop_perm _ _ hx).nodup_iff.2 ((h.2 _).erase x)
    · exact h.2 _
  · exact h.2 _

theorem vecOk_pruneBin {m : AssocMap Int (List Nat)} (h : VecOk m) (k : Int) :
    VecOk (pruneBin m k) := by
  refine ⟨keysNodup_pruneBin h.1 _, ?_⟩
  intro k'
  rw [binAt_pruneBin h.1]
  exact h.2 k'

theorem vecClass_pushBin {t : Nat → Int} {m : AssocMap Int (List Nat)} (h : VecClass t m)
    (x : Nat) : VecClass t (pushBin m (t x) x) := by
  intro k' y hy
  rw [binAt_pushBin] at hy
  split at hy
  · rename_i hk
    subst hk
    split at hy
    · exact h _ y hy
    · rcases List.mem_append.1 hy with hy | hy
      · exact h _ y hy
      · have : y = x := by simpa using hy
        rw [this]
  · exact h _ y hy

theorem vecClass_popBin {t : Nat → Int} {m : AssocMap Int (List Nat)} (h : VecClass t m)
    (k : Int) (x : Nat) : VecClass t (popBin m k x) := by
  intro k' y hy
  rw [binAt_popBin] at hy
  split at hy
  · rename_i hk
    subst hk
    split at hy
    · rename_i hx
      exact h _ y (mem_swapPop hx hy)
    · exact h _ y hy
  · exact h _ y hy

theorem vecClass_pruneBin {t : Nat → Int} {m : AssocMap Int (List Nat)}
    (hm : AssocMap.KeysNodup m) (h : VecClass t m) (k : Int) : VecClass t (pruneBin m k) := by
  intro k' y hy
  rw [binAt_pruneBin hm] at hy
  exact h _ y hy

theorem keysNodup_delFeatureFrom {bins : FeatureRenderBin A} (hb : AssocMap.KeysNodup bins)
    (num : Int) (k : Int) (f : CFeature) :
    AssocMap.KeysNodup (delFeatureFrom bins num k f).1 := by
  unfold delFeatureFrom
  split
  · simp only []
    split
    · exact AssocMap.keysNodup_erase (AssocMap.keysNodup_put hb _ _) _
    · exact AssocMap.keysNodup_put hb _ _
  · exact hb

theorem binAt_delFeatureFrom {bins : FeatureRenderBin A} (hb : AssocMap.KeysNodup bins)
    (num : Int) (k k' : Int) (f : CFeature) :
    binAt (delFeatureFrom bins num k f).1 k'
      = if k' = k then AssocMap.erase (binAt bins k) f else binAt bins k' := by
  unfold delFeatureFrom
  cases hfs : AssocMap.find bins k with
  | none =>
    have hb0 : binAt bins k = [] := by simp [binAt, hfs]
    by_cases hk : k' = k
    · subst hk; simp [hb0, AssocMap.erase]
    · simp [hk]
  | some fs =>
    have hb1 : binAt bins k = fs := by simp [binAt, hfs]
    simp only [hb1]
    split
    · rename_i he
      by_cases hk : k' = k
      · subst hk
        rw [List.isEmpty_iff] at he
        simp [binAt, AssocMap.find_erase_self (AssocMap.keysNodup_put hb _ _), he]
      · simp [hk, binAt, AssocMap.find_erase_ne _ hk, AssocMap.find_put_ne _ _ hk]
    · exact binAt_put _ _ _ _

theorem featNodup_delFeatureFrom {bins : FeatureRenderBin A} (hb : FeatNodup bins)
    (num : Int) (k : Int) (f : CFeature) : FeatNodup (delFeatureFrom bins num k f).1 := by
  refine ⟨keysNodup_delFeatureFrom hb.1 _ _ _, ?_⟩
  intro k'
  rw [binAt_delFeatureFrom hb.1]
  split
  · exact AssocMap.keysNodup_erase (hb.2 _) _
  · exact hb.2 _

theorem featNodup_AddFeature [DecidableEq A] {s : Renderer A} (hb : FeatNodup s.features)
    (t : CFeature → Int) (f : CFeature) (alpha : A) :
    FeatNodup (AddFeature t s f alpha).features := by
  rw [AddFeature_features]
  refine ⟨AssocMap.keysNodup_put hb.1 _ _, ?_⟩
  intro k'
  rw [binAt_put]
  split
  · exact AssocMap.keysNodup_put (hb.2 _) _ _
  · exact hb.2 _

/-- The facts about bins that hold in every reachable state. -/
theorem binsOk_step [DecidableEq A] (t : TexType) (s : Renderer A) (c : Call A)
    (h : VecOk s.units ∧ VecOk s.projectiles ∧ FeatNodup s.features ∧ FeatNodup s.featuresSave) :
    VecOk (step t s c).units ∧ VecOk (step t s c).projectiles ∧
      FeatNodup (step t s c).features ∧ FeatNodup (step t s c).featuresSave := by
  obtain ⟨hu, hp, hf, hs⟩ := h
  cases c with
  | addUnit u =>
    refine ⟨by simp only [step, AddUnit_units]; exact vecOk_pushBin hu _ _, ?_, ?_, ?_⟩ <;>
      (simp only [step, AddUnit]; split <;> assumption)
  | delUnit u =>
    refine ⟨by simp only [step, DelUnit_units]; exact vecOk_pruneBin (vecOk_popBin hu _ _) _,
      ?_, ?_, ?_⟩ <;>
      (simp only [step, DelUnit]; split <;> split <;> assumption)
  | addFeature f alpha =>
    refine ⟨?_, ?_, featNodup_AddFeature hf _ f alpha, ?_⟩ <;>
      (simp only [step, AddFeature]; split <;> [split; skip] <;> assumption)
  | delFeature f =>
    exact ⟨hu, hp, featNodup_delFeatureFrom hf _ _ _, featNodup_delFeatureFrom hs _ _ _⟩
  | swapFeatures => exact ⟨hu, hp, hs, hf⟩
  | addProjectile p =>
    refine ⟨?_, by simp only [step, AddProjectile_projectiles]; exact vecOk_pushBin hp _ _,
      ?_, ?_⟩ <;>
      (simp only [step, AddProjectile]; split <;> assumption)
  | delProjectile p =>
    refine ⟨?_, by simp only [step, DelProjectile_projectiles]; exact vecOk_popBin hp _ _,
      ?_, ?_⟩ <;>
      (simp only [step, DelProjectile]; split <;> assumption)

theorem binsOk_of_reachable [DecidableEq A] {s : Renderer A} (h : Reachable s) :
    VecOk s.units ∧ VecOk s.projectiles ∧ FeatNodup s.features ∧ FeatNodup s.featuresSave := by
  induction h with
  | init =>
    have hv : VecOk ([] : AssocMap Int (List Nat)) :=
      ⟨by simp [AssocMap.KeysNodup, AssocMap.keys], by intro k; simp [binAt, AssocMap.find]⟩
    have hf : FeatNodup ([] : FeatureRenderBin A) :=
      ⟨by simp [AssocMap.KeysNodup, AssocMap.keys],
        by intro k; simp [binAt, AssocMap.find, AssocMap.KeysNodup, AssocMap.keys]⟩
    exact ⟨hv, hv, hf, hf⟩
  | step t c _ ih => exact binsOk_step t _ c ih

theorem reachable_of_reachableFixed [DecidableEq A] {t : TexType} {s : Renderer A}
    (h : ReachableFixed t s) : Reachable s := by
  induction h with
  | init => exact Reachable.init
  | step c _ ih => exact Reachable.step t c ih

theorem vecClass_step [DecidableEq A] (t : TexType) (s : Renderer A) (c : Call A)
    (hr : Reachable s)
    (h : VecClass t.unit s.units ∧ VecClass t.projectile s.projectiles) :
    VecClass t.unit (step t s c).units ∧ VecClass t.projectile (step t s c).projectiles := by
  obtain ⟨hu, hp⟩ := h
  have hk := (binsOk_of_reachable hr).1.1
  cases c with
  | addUnit u =>
    refine ⟨by simp only [step, AddUnit_units]; exact vecClass_pushBin hu _, ?_⟩
    simp only [step, AddUnit]; split <;> assumption
  | delUnit u =>
    refine ⟨by
      simp only [step, DelUnit_units]
      exact vecClass_pruneBin (keysNodup_popBin hk _ _) (vecClass_popBin hu _ _) _, ?_⟩
    simp only [step, DelUnit]; split <;> split <;> assumption
  | addFeature f alpha =>
    constructor <;> (simp only [step, AddFeature]; split <;> [split; skip] <;> assumption)
  | delFeature f => exact ⟨hu, hp⟩
  | swapFeatures => exact ⟨hu, hp⟩
  | addProjectile p =>
    refine ⟨?_, by simp only [step, AddProjectile_projectiles]; exact vecClass_pushBin hp _⟩
    simp only [step, AddProjectile]; split <;> assumption
  | delProjectile p =>
    refine ⟨?_, by simp only [step, DelProjectile_projectiles]; exact vecClass_popBin hp _ _⟩
    simp only [step, DelProjectile]; split <;> assumption

theorem vecClass_of_reachableFixed [DecidableEq A] {t : TexType} {s : Renderer A}
    (h : ReachableFixed t s) :
    VecClass t.unit s.units ∧ VecClass t.projectile s.projectiles := by
  induction h with
  | init => constructor <;> (intro k x hx; simp [Renderer.init, binAt, AssocMap.find] at hx)
  | step c hs ih => exact vecClass_step t _ c (reachable_of_reachableFixed hs) ih

/-! ## Drawing: lemmas -/

theorem keys_pairwise {K V : Type} [DecidableEq K] {m : AssocMap K V}
    (hm : AssocMap.KeysNodup m) : List.Pairwise (fun a b => a.1 ≠ b.1) m := by
  unfold AssocMap.KeysNodup AssocMap.keys List.Nodup at hm
  exact List.pairwise_map.1 hm

theorem entry_unique {B : Type} {m : AssocMap Int (List B)} (hm : AssocMap.KeysNodup m)
    {e₁ e₂ : Int × List B} (h₁ : e₁ ∈ m) (h₂ : e₂ ∈ m) (hk : e₁.1 = e₂.1) : e₁ = e₂ := by
  have b₁ := binAt_of_mem hm h₁
  have b₂ := binAt_of_mem hm h₂
  rw [hk, b₂] at b₁
  exact Prod.ext hk b₁.symm

theorem registeredIn_iff (m : AssocMap Int (List Nat)) (x : Nat) :
    registeredIn m x = true ↔ ∃ e ∈ m, x ∈ e.2 := by
  simp [registeredIn, List.any_eq_true]

theorem mem_flatMap_iff_registeredIn (m : AssocMap Int (List Nat)) (x : Nat) :
    x ∈ m.flatMap (fun e => e.2) ↔ registeredIn m x = true := by
  rw [registeredIn_iff, List.mem_flatMap]

theorem mem_keys_iff_contains {K V : Type} [DecidableEq K] (m : AssocMap K V) (k : K) :
    k ∈ AssocMap.keys m ↔ AssocMap.contains m k = true := by
  have h := AssocMap.find_eq_none_iff m k
  unfold AssocMap.contains
  cases hf : AssocMap.find m k with
  | none => simpa [hf] using h
  | some v =>
    rw [hf] at h
    simpa using h

theorem mem_flatMap_keys_iff_presentIn (bins : FeatureRenderBin A) (f : CFeature) :
    f ∈ bins.flatMap (fun e => AssocMap.keys e.2) ↔ presentIn bins f = true := by
  unfold presentIn
  rw [List.mem_flatMap, List.any_eq_true]
  constructor
  · rintro ⟨e, he, hf⟩
    exact ⟨e, he, (mem_keys_iff_contains _ _).1 hf⟩
  · rintro ⟨e, he, hf⟩
    exact ⟨e, he, (mem_keys_iff_contains _ _).2 hf⟩

theorem flatMap_units_eq (m : AssocMap Int (List Nat)) :
    m.flatMap (fun uIt => DrawModelsUnitSet uIt.2)
      = (m.flatMap (fun e => e.2)).map Event.DrawModelUnit := by
  simp [DrawModelsUnitSet, List.map_flatMap]

theorem flatMap_projectiles_eq (m : AssocMap Int (List Nat)) :
    m.flatMap (fun pIt => DrawModelsProjectileSet pIt.2)
      = (m.flatMap (fun e => e.2)).map Event.DrawModelProjectile := by
  simp [DrawModelsProjectileSet, List.map_flatMap]

theorem flatMap_features_eq (bins : FeatureRenderBin A) :
    bins.flatMap (fun fIt => DrawModelsFeatureSet fIt.2)
      = (bins.flatMap (fun e => AssocMap.keys e.2)).map Event.DrawModelFeature := by
  simp [DrawModelsFeatureSet, List.map_flatMap, AssocMap.keys, Function.comp_def]

theorem Draw_events (s : Renderer A) :
    (Draw s).2 = [Event.PushRenderState]
      ++ (s.units.flatMap (fun e => e.2)).map Event.DrawModelUnit
      ++ (s.features.flatMap (fun e => AssocMap.keys e.2)).map Event.DrawModelFeature
      ++ (s.projectiles.flatMap (fun e => e.2)).map Event.DrawModelProjectile
      ++ [Event.PopRenderState] := by
  simp only [Draw, flatMap_units_eq, flatMap_projectiles_eq, flatMap_features_eq]

theorem count_map_other {B : Type} (g : B → Event) (l : List B) (e : Event)
    (h : ∀ b, g b ≠ e) : (l.map g).count e = 0 := by
  apply List.count_eq_zero_of_not_mem
  intro hm
  obtain ⟨b, _, hb⟩ := List.mem_map.1 hm
  exact h b hb

theorem Draw_phase_sorted (s : Renderer A) :
    (Draw s).2.Pairwise (fun a b => a.phase ≤ b.phase) := by
  rw [Draw_events]
  simp only [List.pairwise_append, List.pairwise_map, List.mem_append, List.mem_map,
    List.mem_singleton, Event.phase]
  refine ⟨⟨⟨⟨by simp, ?_, ?_⟩, ?_, ?_⟩, ?_, ?_⟩, by simp, ?_⟩
  · exact List.pairwise_of_forall (fun _ _ => Nat.le_refl _)
  · rintro a rfl b ⟨x, _, rfl⟩; simp
  · exact List.pairwise_of_forall (fun _ _ => Nat.le_refl _)
  · rintro a (rfl | ⟨x, _, rfl⟩) b ⟨y, _, rfl⟩ <;> simp [Event.phase]
  · exact List.pairwise_of_forall (fun _ _ => Nat.le_refl _)
  · rintro a ((rfl | ⟨x, _, rfl⟩) | ⟨x, _, rfl⟩) b ⟨y, _, rfl⟩ <;> simp [Event.phase]
  · rintro a (((rfl | ⟨x, _, rfl⟩) | ⟨x, _, rfl⟩) | ⟨x, _, rfl⟩) b rfl <;> simp [Event.phase]

theorem lt_of_phase_lt {l : List Event} (hl : l.Pairwise (fun a b => a.phase ≤ b.phase))
    {i j : Nat} {a b : Event} (ha : l[i]? = some a) (hb : l[j]? = some b)
    (hab : a.phase < b.phase) : i < j := by
  obtain ⟨hi, hia⟩ := List.getElem?_eq_some.1 ha
  obtain ⟨hj, hjb⟩ := List.getElem?_eq_some.1 hb
  by_contra hij
  rcases Nat.lt_or_eq_of_le (Nat.le_of_not_lt hij) with h | h
  · have := List.pairwise_iff_getElem.1 hl j i hj hi h
    rw [hia, hjb] at this
    omega
  · subst h
    rw [hia] at hjb
    subst hjb
    omega

/-! ## Removal and round trip: lemmas -/

theorem not_mem_entries_of_binAt {m : AssocMap Int (List Nat)} (hm : AssocMap.KeysNodup m)
    {x : Nat} (h : ∀ k, x ∉ binAt m k) : ∀ e ∈ m, x ∉ e.2 := by
  intro e he
  have := h e.1
  rwa [binAt_of_mem hm he] at this

theorem swapPop_append_self {v : List Nat} {x : Nat} (hx : x ∉ v) :
    swapPop (v ++ [x]) ((v ++ [x]).indexOf x) = v := by
  simp only [swapPop, List.getLast?_concat]
  rw [List.indexOf_append_of_not_mem hx, List.indexOf_cons_self,
    List.set_append_right _ _ (by simp), List.dropLast_append_of_ne_nil _ (by simp)]
  simp

theorem prune_pop_push {m : AssocMap Int (List Nat)} (hm : NoEmptyBin m) {k : Int} {x : Nat}
    (hx : x ∉ binAt m k) : pruneBin (popBin (pushBin m k x) k x) k = m := by
  rw [pushBin_of_not_mem hx]
  have hin : x ∈ binAt (AssocMap.put m k (binAt m k ++ [x])) k := by
    rw [binAt_put_self]; simp
  rw [popBin_of_mem hin, binAt_put_self, swapPop_append_self hx, AssocMap.put_put]
  unfold pruneBin
  rw [binAt_put_self]
  cases hf : AssocMap.find m k with
  | none =>
    have hb : binAt m k = [] := by simp [binAt, hf]
    simp [hb, AssocMap.erase_put_of_not_find _ hf]
  | some v =>
    have hv : v ≠ [] := hm _ (AssocMap.mem_of_find hf)
    have hb : binAt m k = v := by simp [binAt, hf]
    have : v.isEmpty = false := by
      cases v with
      | nil => exact absurd rfl hv
      | cons _ _ => rfl
    simp [hb, this, AssocMap.put_of_find hf]

theorem presentIn_of_contains_binAt {bins : FeatureRenderBin A} {k : Int} {f : CFeature}
    (h : AssocMap.contains (binAt bins k) f = true) : presentIn bins f = true := by
  unfold presentIn
  rw [List.any_eq_true]
  exact ⟨(k, binAt bins k), mem_of_binAt_ne_nil (binAt_ne_nil_of_contains h), h⟩

theorem find_delFeatureFrom_ne_empty {bins : FeatureRenderBin A}
    (hb : AssocMap.KeysNodup bins) (num : Int) (k : Int) (f : CFeature) :
    AssocMap.find (delFeatureFrom bins num k f).1 k ≠ some [] := by
  unfold delFeatureFrom
  cases hfs : AssocMap.find bins k with
  | none => simp [hfs]
  | some fs =>
    simp only []
    split
    · simp [AssocMap.find_erase_self (AssocMap.keysNodup_put hb _ _)]
    · rename_i he
      rw [AssocMap.find_put_self]
      intro h0
      have h1 : AssocMap.erase fs f = [] := by simpa using h0
      exact he (by rw [h1]; rfl)

/-! ## Geometry buffer: lemmas -/

theorem expectedCall_succ (b : Bool) (i : Nat) : expectedCall b (i + 1) = expectedCall (!b) i := by
  unfold expectedCall
  rcases Nat.mod_two_eq_zero_or_one i with h | h <;> cases b <;>
    simp [h, Nat.add_mod]

theorem runCalls_isSome_iff (cs : List BufferCall) :
    ∀ g : GeometryBuffer, g.dead = false →
      ((g.runCalls cs).isSome = true ↔
        ∀ (i : Nat) (c : BufferCall), cs[i]? = some c → c = expectedCall g.bound i) := by
  induction cs with
  | nil => intro g _; simp [GeometryBuffer.runCalls]
  | cons c cs ih =>
    intro g hd
    obtain ⟨d, b⟩ := g
    simp only at hd
    subst hd
    have key : ∀ (e : Bool), (∀ (i : Nat) (c' : BufferCall), (c :: cs)[i]? = some c' →
        c' = expectedCall e i) ↔
        (c = expectedCall e 0 ∧ ∀ (i : Nat) (c' : BufferCall), cs[i]? = some c' →
          c' = expectedCall (!e) i) := by
      intro e
      constructor
      · intro h
        refine ⟨h 0 c (by simp), ?_⟩
        intro i c' hi
        rw [← expectedCall_succ]
        exact h (i + 1) c' (by simpa using hi)
      · rintro ⟨h0, h1⟩ i c' hi
        cases i with
        | zero =>
          have : c = c' := by simpa using hi
          rw [← this]; exact h0
        | succ i =>
          rw [expectedCall_succ]
          exact h1 i c' (by simpa using hi)
    rw [key]
    cases c <;> cases b
    · have := ih { dead := false, bound := true } rfl
      simpa [GeometryBuffer.runCalls, GeometryBuffer.call, GeometryBuffer.Bind,
        expectedCall] using this
    · simp [GeometryBuffer.runCalls, GeometryBuffer.call, GeometryBuffer.Bind, expectedCall]
    · simp [GeometryBuffer.runCalls, GeometryBuffer.call, GeometryBuffer.UnBind, expectedCall]
    · have := ih { dead := false, bound := false } rfl
      simpa [GeometryBuffer.runCalls, GeometryBuffer.call, GeometryBuffer.UnBind,
        expectedCall] using this

/-! ## Objects stored under the key that a call reads -/

theorem noEmptyBin_AddFeature [DecidableEq A] {s : Renderer A} (h : NoEmptyBin s.features)
    (t : CFeature → Int) (f : CFeature) (alpha : A) :
    NoEmptyBin (AddFeature t s f alpha).features := by
  rw [AddFeature_features]
  intro e he
  rcases AssocMap.mem_put_cases he with h1 | h1
  · subst h1
    exact AssocMap.put_ne_nil _ _ _
  · exact h e h1

theorem noEmptyBin_delFeatureFrom {bins : FeatureRenderBin A} (h : NoEmptyBin bins)
    (num : Int) (k : Int) (f : CFeature) : NoEmptyBin (delFeatureFrom bins num k f).1 := by
  unfold delFeatureFrom
  split
  · rename_i fs hfs
    simp only []
    split
    · rw [AssocMap.erase_put]
      intro e he
      exact h e (AssocMap.mem_erase_subset he)
    · rename_i hne
      intro e he
      rcases AssocMap.mem_put_cases he with h1 | h1
      · subst h1
        intro h0
        have h2 : AssocMap.erase fs f = [] := h0
        exact hne (by rw [h2]; rfl)
      · exact h e h1
  · exact h

theorem noEmptyBin_features_step [DecidableEq A] (t : TexType) (s : Renderer A) (c : Call A)
    (h : NoEmptyBin s.features ∧ NoEmptyBin s.featuresSave) :
    NoEmptyBin (step t s c).features ∧ NoEmptyBin (step t s c).featuresSave := by
  cases c with
  | addUnit u => simp only [step, AddUnit]; split <;> exact h
  | delUnit u => simp only [step, DelUnit]; split <;> split <;> exact h
  | addFeature f alpha =>
    refine ⟨noEmptyBin_AddFeature h.1 _ f alpha, ?_⟩
    simp only [step, AddFeature]
    split <;> [split; skip] <;> exact h.2
  | delFeature f =>
    exact ⟨noEmptyBin_delFeatureFrom h.1 _ _ _, noEmptyBin_delFeatureFrom h.2 _ _ _⟩
  | swapFeatures => exact ⟨h.2, h.1⟩
  | addProjectile p => simp only [step, AddProjectile]; split <;> exact h
  | delProjectile p => simp only [step, DelProjectile]; split <;> exact h

theorem noEmptyBin_features_of_reachable [DecidableEq A] {s : Renderer A} (h : Reachable s) :
    NoEmptyBin s.features ∧ NoEmptyBin s.featuresSave := by
  induction h with
  | init => constructor <;> (intro e he; simp [Renderer.init] at he)
  | step t c _ ih => exact noEmptyBin_features_step t _ c ih

theorem delFeatureFrom_spec {bins : FeatureRenderBin A} (hb : FeatNodup bins)
    (hne : NoEmptyBin bins) (num : Int) (k : Int) (f : CFeature)
    (H : ∀ e ∈ bins, AssocMap.contains e.2 f = true → e.1 = k) :
    presentIn (delFeatureFrom bins num k f).1 f = false ∧
      (delFeatureFrom bins num k f).2 = (if presentIn bins f = true then num - 1 else num) ∧
      (presentIn bins f = false → (delFeatureFrom bins num k f).1 = bins) := by
  have hpres : presentIn bins f = AssocMap.contains (binAt bins k) f := by
    rw [Bool.eq_iff_iff]
    constructor
    · intro hp
      unfold presentIn at hp
      obtain ⟨e, he, hc⟩ := List.any_eq_true.1 hp
      rw [← H e he hc, binAt_of_mem hb.1 he]
      exact hc
    · exact presentIn_of_contains_binAt
  refine ⟨?_, ?_, ?_⟩
  · rw [Bool.eq_false_iff]
    intro hp
    unfold presentIn at hp
    obtain ⟨e, he, hc⟩ := List.any_eq_true.1 hp
    have hbin := binAt_of_mem (keysNodup_delFeatureFrom hb.1 num k f) he
    rw [binAt_delFeatureFrom hb.1] at hbin
    by_cases hek : e.1 = k
    · rw [if_pos hek] at hbin
      rw [← hbin] at hc
      simp [AssocMap.contains, AssocMap.find_erase_self (hb.2 k)] at hc
    · rw [if_neg hek] at hbin
      rw [← hbin] at hc
      exact hek (H (e.1, binAt bins e.1) (mem_of_binAt_ne_nil (binAt_ne_nil_of_contains hc)) hc)
  · rw [hpres]
    unfold delFeatureFrom
    cases hfs : AssocMap.find bins k with
    | none => simp [binAt, hfs, AssocMap.contains, AssocMap.find]
    | some fs =>
      simp only [binAt, hfs, Option.getD_some]
      split <;> rfl
  · intro hp
    rw [hpres] at hp
    unfold delFeatureFrom
    cases hfs : AssocMap.find bins k with
    | none => rfl
    | some fs =>
      have hbin : binAt bins k = fs := by simp [binAt, hfs]
      rw [hbin] at hp
      have hnone : AssocMap.find fs f = none := by simpa [AssocMap.contains] using hp
      have hfs0 : fs ≠ [] := hne _ (AssocMap.mem_of_find hfs)
      have : fs.isEmpty = false := by
        cases fs with
        | nil => exact absurd rfl hfs0
        | cons _ _ => rfl
      simp [AssocMap.erase_of_not_find hnone, this, AssocMap.put_of_find hfs]

theorem mem_binAt_of_registeredIn {m : AssocMap Int (List Nat)} (hm : AssocMap.KeysNodup m)
    {x : Nat} {k : Int} (H : ∀ e ∈ m, x ∈ e.2 → e.1 = k) (h : registeredIn m x = true) :
    x ∈ binAt m k := by
  obtain ⟨e, he, hx⟩ := (registeredIn_iff m x).1 h
  rw [← H e he hx, binAt_of_mem hm he]
  exact hx

theorem popBin_removes {m : AssocMap Int (List Nat)} (hv : VecOk m) {x : Nat} {k : Int}
    (H : ∀ e ∈ m, x ∈ e.2 → e.1 = k) (hx : x ∈ binAt m k) :
    (∀ k', x ∉ binAt (popBin m k x) k') ∧
    (∀ y k', y ≠ x → (y ∈ binAt (popBin m k x) k' ↔ y ∈ binAt m k')) := by
  constructor
  · intro k' hk
    rw [binAt_popBin] at hk
    by_cases hkk : k' = k
    · rw [if_pos hkk, if_pos hx] at hk
      have := (swapPop_perm _ _ hx).mem_iff.1 hk
      exact ((hv.2 k).mem_erase_iff.1 this).1 rfl
    · rw [if_neg hkk] at hk
      exact hkk (H (k', binAt m k') (mem_of_binAt_ne_nil (List.ne_nil_of_mem hk)) hk)
  · intro y k' hy
    rw [binAt_popBin]
    by_cases hkk : k' = k
    · rw [if_pos hkk, if_pos hx, (swapPop_perm _ _ hx).mem_iff, (hv.2 k).mem_erase_iff, hkk]
      simp [hy]
    · rw [if_neg hkk]

theorem count_flatMap_of_nodup {E : Type} (g : E → List Nat) (l : List E)
    (hn : ∀ e ∈ l, (g e).Nodup) (x : Nat) :
    (l.flatMap g).count x = (l.filter (fun e => decide (x ∈ g e))).length := by
  induction l with
  | nil => simp
  | cons e r ih =>
    have hr : ∀ e' ∈ r, (g e').Nodup := fun e' he' => hn e' (List.mem_cons_of_mem _ he')
    rw [List.flatMap_cons, List.count_append, ih hr, List.filter_cons]
    by_cases hx : x ∈ g e
    · rw [List.count_eq_one_of_mem (hn e (List.mem_cons_self _ _)) hx]
      simp [hx]
      omega
    · rw [List.count_eq_zero_of_not_mem hx]
      simp [hx]

theorem filter_length_of_unique {E : Type} (l : List E) (P : E → Bool) (hnd : l.Nodup)
    (hu : ∀ a ∈ l, ∀ b ∈ l, P a = true → P b = true → a = b) :
    (l.filter P).length = if l.any P = true then 1 else 0 := by
  induction l with
  | nil => simp
  | cons e r ih =>
    obtain ⟨her, hr⟩ := List.nodup_cons.1 hnd
    have hu' : ∀ a ∈ r, ∀ b ∈ r, P a = true → P b = true → a = b :=
      fun a ha b hb => hu a (List.mem_cons_of_mem _ ha) b (List.mem_cons_of_mem _ hb)
    by_cases hp : P e = true
    · have hf : r.filter P = [] := by
        rw [List.filter_eq_nil_iff]
        intro b hb hpb
        have := hu e (List.mem_cons_self _ _) b (List.mem_cons_of_mem _ hb) hp hpb
        exact her (this ▸ hb)
      simp [List.filter_cons, hp, hf]
    · have hp' : P e = false := by simpa using hp
      rw [List.filter_cons, if_neg hp, ih hr hu']
      simp [List.any_cons, hp']

theorem entries_nodup {K V : Type} [DecidableEq K] {m : AssocMap K V}
    (hm : AssocMap.KeysNodup m) : m.Nodup :=
  List.Nodup.of_map Prod.fst hm

theorem decide_mem_keys_eq (f : CFeature) :
    (fun e : Int × FeatureSet A => decide (f ∈ AssocMap.keys e.2))
      = (fun e => AssocMap.contains e.2 f) := by
  funext e
  rw [Bool.eq_iff_iff]
  simp [mem_keys_iff_contains]

/-! ## Claims -/

/-- C1. Counter invariant: in every state reachable from the initial state by any
finite sequence of the seven bin operations, `numUnits` is the sum of the sizes of
all unit bins, `numProjectiles` the sum of the sizes of all projectile bins,
`numFeatures` the sum of the sizes of all live feature bins and `numFeaturesSave`
the sum of the sizes of all saved feature bins. -/
theorem counters_eq_bin_sizes [DecidableEq A] {s : Renderer A} (h : Reachable s) :
    s.numUnits = totalSize s.units ∧ s.numProjectiles = totalSize s.projectiles ∧
      s.numFeatures = totalSize s.features ∧ s.numFeaturesSave = totalSize s.featuresSave := by
  induction h with
  | init => simp [Renderer.init, totalSize]
  | step t c _ ih => exact step_counters t _ c ih

/-- C2. Replay semantics: after any finite sequence of `AddUnit`/`DelUnit` calls on
the initial state, every unit keeping its classification key, a unit `u` is in the
unit bin under `k` exactly when `k` is the key of `u` and the last call naming `u`
is an `AddUnit`, and `numUnits` is the number of such units; the same holds for
`AddProjectile`/`DelProjectile`, the projectile bins and `numProjectiles`. -/
theorem replay_semantics [DecidableEq A] (t : TexType) (cs : List BinCall) :
    ((∀ u k, u ∈ binAt (run t (Renderer.init A) (cs.map (BinCall.unitCall A))).units k
        ↔ (k = t.unit u ∧ netAdded cs u = true)) ∧
      (run t (Renderer.init A) (cs.map (BinCall.unitCall A))).numUnits = (netSet cs).card) ∧
    ((∀ p k, p ∈ binAt (run t (Renderer.init A) (cs.map (BinCall.projectileCall A))).projectiles k
        ↔ (k = t.projectile p ∧ netAdded cs p = true)) ∧
      (run t (Renderer.init A) (cs.map (BinCall.projectileCall A))).numProjectiles
        = (netSet cs).card) :=
  ⟨⟨(replayOk_units t cs).2.2.1, (replayOk_units t cs).2.2.2⟩,
    ⟨(replayOk_projectiles t cs).2.2.1, (replayOk_projectiles t cs).2.2.2⟩⟩

/-- C3, as amended. `DelFeature` dual removal: in every reachable state, for a feature
`f` that is stored only in bins under the key that `DelFeature` reads for it (as it is
when the classification key of `f` has not changed since it was added), after
`DelFeature(f)` the feature `f` is present in neither the live nor the saved collection;
`numFeatures` drops by exactly 1 if `f` was present in the live collection and is
unchanged otherwise, and likewise `numFeaturesSave` for the saved collection. When `f`
is present only in the saved collection, it is removed from it, `numFeaturesSave` drops
by 1 and the live collection and `numFeatures` are untouched; when `f` is present in
neither, the state is unchanged. -/
theorem delFeature_dual_removal [DecidableEq A] {s : Renderer A} (h : Reachable s)
    (t : CFeature → Int) (f : CFeature)
    (hkl : ∀ e ∈ s.features, AssocMap.contains e.2 f = true → e.1 = t f)
    (hks : ∀ e ∈ s.featuresSave, AssocMap.contains e.2 f = true → e.1 = t f) :
    presentIn (DelFeature t s f).features f = false ∧
    presentIn (DelFeature t s f).featuresSave f = false ∧
    (DelFeature t s f).numFeatures
      = (if presentIn s.features f = true then s.numFeatures - 1 else s.numFeatures) ∧
    (DelFeature t s f).numFeaturesSave
      = (if presentIn s.featuresSave f = true then s.numFeaturesSave - 1
          else s.numFeaturesSave) ∧
    (presentIn s.features f = false → presentIn s.featuresSave f = true →
      presentIn (DelFeature t s f).featuresSave f = false ∧
      (DelFeature t s f).numFeaturesSave = s.numFeaturesSave - 1 ∧
      (DelFeature t s f).features = s.features ∧
      (DelFeature t s f).numFeatures = s.numFeatures) ∧
    (presentIn s.features f = false → presentIn s.featuresSave f = false →
      DelFeature t s f = s) := by
  obtain ⟨_, _, hl, hs⟩ := binsOk_of_reachable h
  obtain ⟨nl, ns⟩ := noEmptyBin_features_of_reachable h
  obtain ⟨l1, l2, l3⟩ := delFeatureFrom_spec hl nl s.numFeatures (t f) f hkl
  obtain ⟨s1, s2, s3⟩ := delFeatureFrom_spec hs ns s.numFeaturesSave (t f) f hks
  refine ⟨l1, s1, l2, s2, ?_, ?_⟩
  · intro hnl hsv
    refine ⟨s1, ?_, l3 hnl, ?_⟩
    · simp only [DelFeature, s2, hsv, if_true]
    · simp only [DelFeature, l2, hnl, Bool.false_eq_true, if_false]
  · intro hnl hns
    have e1 := l3 hnl
    have e2 := s3 hns
    have e3 : (delFeatureFrom s.features s.numFeatures (t f) f).2 = s.numFeatures := by
      rw [l2, hnl]; rfl
    have e4 : (delFeatureFrom s.featuresSave s.numFeaturesSave (t f) f).2
        = s.numFeaturesSave := by
      rw [s2, hns]; rfl
    unfold DelFeature
    simp only [e1, e2, e3, e4]

/-- C3 as stated fails: after `AddFeature(1, 5)` read under key 1, a `DelFeature(1)` that
reads key 2 for the feature finds no bin, so the feature is still present in the live
collection and `numFeatures` is still 1. -/
theorem delFeature_rekeyed_counterexample :
    Reachable featureAdded ∧ presentIn featureAdded.features 1 = true ∧
    presentIn (DelFeature rekeyedTex.feature featureAdded 1).features 1 = true ∧
    (DelFeature rekeyedTex.feature featureAdded 1).numFeatures = featureAdded.numFeatures ∧
    featureAdded.numFeatures = 1 :=
  ⟨Reachable.step exampleTex (Call.addFeature 1 5) Reachable.init, by decide, by decide,
    by decide, by decide⟩

/-- C4. `AddFeature` insert-or-update: after `AddFeature(f, a)` the live bin under the
key of `f` maps `f` to `a`; `numFeatures` grows by exactly 1 if `f` was not in that bin
and is unchanged if it was; if `f` was already stored with opacity `a` the whole state
is unchanged. Hence a second `AddFeature(f, a)` changes nothing, and a following
`AddFeature(f, b)` leaves the counter unchanged and the stored opacity `b`. -/
theorem addFeature_insert_or_update [DecidableEq A] (t : CFeature → Int) (s : Renderer A)
    (f : CFeature) (a b : A) :
    AssocMap.find (binAt (AddFeature t s f a).features (t f)) f = some a ∧
    (AddFeature t s f a).numFeatures
      = (if AssocMap.contains (binAt s.features (t f)) f = true then s.numFeatures
          else s.numFeatures + 1) ∧
    (AssocMap.find (binAt s.features (t f)) f = some a → AddFeature t s f a = s) ∧
    AddFeature t (AddFeature t s f a) f a = AddFeature t s f a ∧
    (AddFeature t (AddFeature t s f a) f b).numFeatures = (AddFeature t s f a).numFeatures ∧
    AssocMap.find (binAt (AddFeature t (AddFeature t s f a) f b).features (t f)) f = some b := by
  have hstored : ∀ (s : Renderer A) (c : A),
      AssocMap.find (binAt (AddFeature t s f c).features (t f)) f = some c := by
    intro s c
    rw [AddFeature_features, binAt_put_self, AssocMap.find_put_self]
  have hsame : ∀ (s : Renderer A) (c : A),
      AssocMap.find (binAt s.features (t f)) f = some c → AddFeature t s f c = s := by
    intro s c hc
    have hcont : AssocMap.contains (binAt s.features (t f)) f = true := by
      simp [AssocMap.contains, hc]
    have hsub := subscript_of_binAt_ne_nil (binAt_ne_nil_of_contains hcont)
    unfold AddFeature
    simp only [hsub, hc, ne_eq, not_true_eq_false, if_false]
  refine ⟨hstored s a, AddFeature_numFeatures t s f a, hsame s a, hsame _ a (hstored s a), ?_,
    hstored _ b⟩
  rw [AddFeature_numFeatures]
  simp [AssocMap.contains, hstored s a]

/-- C5. `SwapFeatures` is an involution: two consecutive swaps restore the whole
state. -/
theorem swapFeatures_involution (s : Renderer A) : SwapFeatures (SwapFeatures s) = s := rfl

/-- C6. `SwapFeatures` postcondition and frame: the live collection becomes the old
saved collection and the saved collection the old live one, the two feature counters
are exchanged, and the unit bins, the projectile bins, `numUnits` and `numProjectiles`
are unchanged; with an empty saved collection the live collection becomes empty. -/
theorem swapFeatures_post_frame (s : Renderer A) :
    (SwapFeatures s).features = s.featuresSave ∧
    (SwapFeatures s).featuresSave = s.features ∧
    (SwapFeatures s).numFeatures = s.numFeaturesSave ∧
    (SwapFeatures s).numFeaturesSave = s.numFeatures ∧
    (SwapFeatures s).units = s.units ∧
    (SwapFeatures s).projectiles = s.projectiles ∧
    (SwapFeatures s).numUnits = s.numUnits ∧
    (SwapFeatures s).numProjectiles = s.numProjectiles ∧
    (s.featuresSave = [] → (SwapFeatures s).features = []) :=
  ⟨rfl, rfl, rfl, rfl, rfl, rfl, rfl, rfl, fun h => h⟩

/-- C7, evaluated at the failing input: after `AddProjectile(1)` and `DelProjectile(1)`
on the initial state the projectile collection still has key 0, with a bin of size 0,
while `DelUnit` after `AddUnit` leaves no unit bin behind. -/
theorem delProjectile_leaves_empty_bin :
    Reachable (run exampleTex (Renderer.init Nat) [Call.addProjectile 1, Call.delProjectile 1]) ∧
    (run exampleTex (Renderer.init Nat) [Call.addProjectile 1, Call.delProjectile 1]).projectiles
      = [(0, [])] ∧
    ¬ NoEmptyBin
      (run exampleTex (Renderer.init Nat) [Call.addProjectile 1, Call.delProjectile 1]).projectiles ∧
    (run exampleTex (Renderer.init Nat) [Call.addUnit 1, Call.delUnit 1]).units = [] := by
  refine ⟨reachable_run exampleTex _, by decide, ?_, by decide⟩
  intro h
  exact h (0, []) (by decide) rfl

/-- C8, evaluated at the failing input: `DelProjectile(1)` on the initial state, where no
projectile is registered, adds the key 0 with an empty bin to the projectile collection,
so the state is changed; `DelUnit(1)` on the same state changes nothing. -/
theorem delProjectile_absent_changes_state :
    (∀ e ∈ (Renderer.init Nat).projectiles, 1 ∉ e.2) ∧
    (DelProjectile exampleTex.projectile (Renderer.init Nat) 1).projectiles = [(0, [])] ∧
    AssocMap.keys (DelProjectile exampleTex.projectile (Renderer.init Nat) 1).projectiles
      ≠ AssocMap.keys (Renderer.init Nat).projectiles ∧
    DelProjectile exampleTex.projectile (Renderer.init Nat) 1 ≠ Renderer.init Nat ∧
    DelUnit exampleTex.unit (Renderer.init Nat) 1 = Renderer.init Nat := by
  refine ⟨by decide, by decide, by decide, by decide, by decide⟩

/-- C9. Deleting an absent unit is a no-op: in every reachable state, for a unit `u`
that is in no unit bin, `DelUnit(u)` leaves the whole state unchanged, whatever key
the call reads for `u`. -/
theorem delUnit_absent_noop [DecidableEq A] {s : Renderer A} (h : Reachable s)
    (t : CUnit → Int) (u : CUnit) (hu : ∀ e ∈ s.units, u ∉ e.2) : DelUnit t s u = s := by
  have hx := not_mem_binAt_of_forall hu (t u)
  have h1 : (DelUnit t s u).units = s.units := by
    rw [DelUnit_units, popBin_of_not_mem hx, pruneBin_subscript (noEmptyBin_units_of_reachable h)]
  have h2 : (DelUnit t s u).numUnits = s.numUnits := by
    rw [DelUnit_numUnits]; simp [hx]
  rw [DelUnit_eq, h1, h2]

/-- C10. Add is idempotent: `AddUnit(u)` on a state where `u` is already in the bin
under its key leaves the state unchanged, hence `AddUnit(AddUnit(s, u), u) =
AddUnit(s, u)`, with the same bin size and the same `numUnits`; likewise for
`AddProjectile` and `numProjectiles`. -/
theorem add_idempotent (tu : CUnit → Int) (tp : CProjectile → Int) (s : Renderer A)
    (u : CUnit) (p : CProjectile) :
    (u ∈ binAt s.units (tu u) → AddUnit tu s u = s) ∧
    AddUnit tu (AddUnit tu s u) u = AddUnit tu s u ∧
    (binAt (AddUnit tu (AddUnit tu s u) u).units (tu u)).length
      = (binAt (AddUnit tu s u).units (tu u)).length ∧
    (AddUnit tu (AddUnit tu s u) u).numUnits = (AddUnit tu s u).numUnits ∧
    (p ∈ binAt s.projectiles (tp p) → AddProjectile tp s p = s) ∧
    AddProjectile tp (AddProjectile tp s p) p = AddProjectile tp s p ∧
    (binAt (AddProjectile tp (AddProjectile tp s p) p).projectiles (tp p)).length
      = (binAt (AddProjectile tp s p).projectiles (tp p)).length ∧
    (AddProjectile tp (AddProjectile tp s p) p).numProjectiles
      = (AddProjectile tp s p).numProjectiles := by
  have hU : ∀ s : Renderer A, u ∈ binAt s.units (tu u) → AddUnit tu s u = s := by
    intro s hu
    have h1 : (AddUnit tu s u).units = s.units := by rw [AddUnit_units, pushBin_of_mem hu]
    have h2 : (AddUnit tu s u).numUnits = s.numUnits := by rw [AddUnit_numUnits]; simp [hu]
    rw [AddUnit_eq, h1, h2]
  have hP : ∀ s : Renderer A, p ∈ binAt s.projectiles (tp p) → AddProjectile tp s p = s := by
    intro s hp
    have h1 : (AddProjectile tp s p).projectiles = s.projectiles := by
      rw [AddProjectile_projectiles, pushBin_of_mem hp]
    have h2 : (AddProjectile tp s p).numProjectiles = s.numProjectiles := by
      rw [AddProjectile_numProjectiles]; simp [hp]
    rw [AddProjectile_eq, h1, h2]
  have hu1 : u ∈ binAt (AddUnit tu s u).units (tu u) := by
    rw [AddUnit_units, binAt_pushBin]
    by_cases hin : u ∈ binAt s.units (tu u) <;> simp [hin]
  have hp1 : p ∈ binAt (AddProjectile tp s p).projectiles (tp p) := by
    rw [AddProjectile_projectiles, binAt_pushBin]
    by_cases hin : p ∈ binAt s.projectiles (tp p) <;> simp [hin]
  exact ⟨hU s, hU _ hu1, by rw [hU _ hu1], by rw [hU _ hu1],
    hP s, hP _ hp1, by rw [hP _ hp1], by rw [hP _ hp1]⟩

/-- C11, as amended. Draw dispatch count: in every reachable state one `Draw` invokes
`PushRenderState` exactly once, `PopRenderState` exactly once, and `DrawModel` for an
object once per bin of the unit, live feature or projectile collection that holds it;
so exactly once for each registered object that sits in a single bin of its collection,
and never for an object held by no such bin (so not for a feature present only in the
saved collection); `Draw` leaves the state as it is. -/
theorem draw_dispatch_count [DecidableEq A] {s : Renderer A} (h : Reachable s) :
    (Draw s).1 = s ∧
    (Draw s).2.count Event.PushRenderState = 1 ∧
    (Draw s).2.count Event.PopRenderState = 1 ∧
    (∀ u, (Draw s).2.count (Event.DrawModelUnit u)
      = (s.units.filter (fun e => decide (u ∈ e.2))).length) ∧
    (∀ f, (Draw s).2.count (Event.DrawModelFeature f)
      = (s.features.filter (fun e => AssocMap.contains e.2 f)).length) ∧
    (∀ p, (Draw s).2.count (Event.DrawModelProjectile p)
      = (s.projectiles.filter (fun e => decide (p ∈ e.2))).length) ∧
    (∀ u, (∀ e₁ ∈ s.units, ∀ e₂ ∈ s.units, u ∈ e₁.2 → u ∈ e₂.2 → e₁ = e₂) →
      (Draw s).2.count (Event.DrawModelUnit u)
        = if registeredIn s.units u = true then 1 else 0) ∧
    (∀ f, (∀ e₁ ∈ s.features, ∀ e₂ ∈ s.features, AssocMap.contains e₁.2 f = true →
        AssocMap.contains e₂.2 f = true → e₁ = e₂) →
      (Draw s).2.count (Event.DrawModelFeature f)
        = if presentIn s.features f = true then 1 else 0) ∧
    (∀ p, (∀ e₁ ∈ s.projectiles, ∀ e₂ ∈ s.projectiles, p ∈ e₁.2 → p ∈ e₂.2 → e₁ = e₂) →
      (Draw s).2.count (Event.DrawModelProjectile p)
        = if registeredIn s.projectiles p = true then 1 else 0) ∧
    (∀ f, presentIn s.features f = false → presentIn s.featuresSave f = true →
      (Draw s).2.count (Event.DrawModelFeature f) = 0) := by
  obtain ⟨hu, hp, hf, _⟩ := binsOk_of_reachable h
  have nu : ∀ e ∈ s.units, e.2.Nodup := by
    intro e he
    have := hu.2 e.1
    rwa [binAt_of_mem hu.1 he] at this
  have np : ∀ e ∈ s.projectiles, e.2.Nodup := by
    intro e he
    have := hp.2 e.1
    rwa [binAt_of_mem hp.1 he] at this
  have nf : ∀ e ∈ s.features, (AssocMap.keys e.2).Nodup := by
    intro e he
    have := hf.2 e.1
    rwa [binAt_of_mem hf.1 he] at this
  have iu : Function.Injective Event.DrawModelUnit := fun a b hab => by cases hab; rfl
  have ife : Function.Injective Event.DrawModelFeature := fun a b hab => by cases hab; rfl
  have ip : Function.Injective Event.DrawModelProjectile := fun a b hab => by cases hab; rfl
  have cU : ∀ u, (Draw s).2.count (Event.DrawModelUnit u)
      = (s.units.filter (fun e => decide (u ∈ e.2))).length := by
    intro u
    rw [Draw_events]
    simp only [List.count_append, List.count_map_of_injective _ _ iu,
      count_flatMap_of_nodup (fun e : Int × List Nat => e.2) _ nu]
    rw [count_map_other Event.DrawModelFeature _ _ (by intro b; simp),
      count_map_other Event.DrawModelProjectile _ _ (by intro b; simp)]
    simp
  have cF : ∀ f, (Draw s).2.count (Event.DrawModelFeature f)
      = (s.features.filter (fun e => AssocMap.contains e.2 f)).length := by
    intro f
    rw [Draw_events]
    simp only [List.count_append, List.count_map_of_injective _ _ ife,
      count_flatMap_of_nodup (fun e : Int × FeatureSet A => AssocMap.keys e.2) _ nf,
      decide_mem_keys_eq]
    rw [count_map_other Event.DrawModelUnit _ _ (by intro b; simp),
      count_map_other Event.DrawModelProjectile _ _ (by intro b; simp)]
    simp
  have cP : ∀ p, (Draw s).2.count (Event.DrawModelProjectile p)
      = (s.projectiles.filter (fun e => decide (p ∈ e.2))).length := by
    intro p
    rw [Draw_events]
    simp only [List.count_append, List.count_map_of_injective _ _ ip,
      count_flatMap_of_nodup (fun e : Int × List Nat => e.2) _ np]
    rw [count_map_other Event.DrawModelUnit _ _ (by intro b; simp),
      count_map_other Event.DrawModelFeature _ _ (by intro b; simp)]
    simp
  refine ⟨rfl, ?_, ?_, cU, cF, cP, ?_, ?_, ?_, ?_⟩
  · rw [Draw_events]
    simp only [List.count_append]
    rw [count_map_other Event.DrawModelUnit _ _ (by intro b; simp),
      count_map_other Event.DrawModelFeature _ _ (by intro b; simp),
      count_map_other Event.DrawModelProjectile _ _ (by intro b; simp)]
    simp
  · rw [Draw_events]
    simp only [List.count_append]
    rw [count_map_other Event.DrawModelUnit _ _ (by intro b; simp),
      count_map_other Event.DrawModelFeature _ _ (by intro b; simp),
      count_map_other Event.DrawModelProjectile _ _ (by intro b; simp)]
    simp
  · intro u hone
    rw [cU u, filter_length_of_unique _ _ (entries_nodup hu.1)
      (fun a ha b hb pa pb => hone a ha b hb (of_decide_eq_true pa) (of_decide_eq_true pb))]
    rfl
  · intro f hone
    rw [cF f, filter_length_of_unique _ _ (entries_nodup hf.1)
      (fun a ha b hb pa pb => hone a ha b hb pa pb)]
    rfl
  · intro p hone
    rw [cP p, filter_length_of_unique _ _ (entries_nodup hp.1)
      (fun a ha b hb pa pb => hone a ha b hb (of_decide_eq_true pa) (of_decide_eq_true pb))]
    rfl
  · intro f hl _
    rw [cF f, List.length_eq_zero, List.filter_eq_nil_iff]
    intro e he hc
    have : presentIn s.features f = true := List.any_eq_true.2 ⟨e, he, hc⟩
    rw [hl] at this
    exact Bool.false_ne_true this

/-- C11 as stated fails: after `AddUnit(1)` read under key 0 and `AddUnit(1)` read under
key 1 the unit is held by two bins, and one `Draw` invokes `DrawModel` for it twice. -/
theorem draw_rekeyed_counterexample :
    Reachable unitAddedTwice ∧ registeredIn unitAddedTwice.units 1 = true ∧
    unitAddedTwice.units = [(0, [1]), (1, [1])] ∧
    (Draw unitAddedTwice).2.count (Event.DrawModelUnit 1) = 2 :=
  ⟨Reachable.step rekeyedTex (Call.addUnit 1)
      (Reachable.step exampleTex (Call.addUnit 1) Reachable.init),
    by decide, by decide, by decide⟩

/-- C12. Draw ordering: in the sequence of hook invocations of one `Draw`,
`PushRenderState` is the first event and `PopRenderState` the last, every `DrawModel`
call for a unit precedes every `DrawModel` call for a feature, and every one of these
precedes every `DrawModel` call for a projectile. -/
theorem draw_ordering (s : Renderer A) :
    (Draw s).2.head? = some Event.PushRenderState ∧
    (Draw s).2.getLast? = some Event.PopRenderState ∧
    (∀ (i j : Nat) u f, (Draw s).2[i]? = some (Event.DrawModelUnit u) →
      (Draw s).2[j]? = some (Event.DrawModelFeature f) → i < j) ∧
    (∀ (i j : Nat) f p, (Draw s).2[i]? = some (Event.DrawModelFeature f) →
      (Draw s).2[j]? = some (Event.DrawModelProjectile p) → i < j) ∧
    (∀ (i j : Nat) u p, (Draw s).2[i]? = some (Event.DrawModelUnit u) →
      (Draw s).2[j]? = some (Event.DrawModelProjectile p) → i < j) := by
  have hs := Draw_phase_sorted s
  refine ⟨by simp [Draw], by rw [Draw_events, List.getLast?_concat], ?_, ?_, ?_⟩
  · intro i j u f hi hj
    exact lt_of_phase_lt hs hi hj (by simp [Event.phase])
  · intro i j f p hi hj
    exact lt_of_phase_lt hs hi hj (by simp [Event.phase])
  · intro i j u p hi hj
    exact lt_of_phase_lt hs hi hj (by simp [Event.phase])

/-- C13. No duplicates: in every reachable state no unit bin and no projectile bin holds
the same object twice, and every feature bin, live or saved, has at most one opacity
entry per feature. -/
theorem no_duplicates_in_bins [DecidableEq A] {s : Renderer A} (h : Reachable s) :
    (∀ e ∈ s.units, e.2.Nodup) ∧ (∀ e ∈ s.projectiles, e.2.Nodup) ∧
    (∀ e ∈ s.features, AssocMap.KeysNodup e.2) ∧
    (∀ e ∈ s.featuresSave, AssocMap.KeysNodup e.2) := by
  obtain ⟨hu, hp, hf, hs⟩ := binsOk_of_reachable h
  refine ⟨?_, ?_, ?_, ?_⟩
  · intro e he
    have := hu.2 e.1
    rwa [binAt_of_mem hu.1 he] at this
  · intro e he
    have := hp.2 e.1
    rwa [binAt_of_mem hp.1 he] at this
  · intro e he
    have := hf.2 e.1
    rwa [binAt_of_mem hf.1 he] at this
  · intro e he
    have := hs.2 e.1
    rwa [binAt_of_mem hs.1 he] at this

/-- C14. Single-bin membership: in a state reached while every object keeps its
classification key, every object stored in the bin under key `k` of a collection
(units, live features, saved features, projectiles) has classification key `k`; hence
within one collection two bins holding the same object are the same bin. -/
theorem single_bin_membership [DecidableEq A] {t : TexType} {s : Renderer A}
    (h : ReachableFixed t s) :
    ((∀ e ∈ s.units, ∀ u ∈ e.2, t.unit u = e.1) ∧
      (∀ e ∈ s.features, ∀ f, AssocMap.contains e.2 f = true → t.feature f = e.1) ∧
      (∀ e ∈ s.featuresSave, ∀ f, AssocMap.contains e.2 f = true → t.feature f = e.1) ∧
      (∀ e ∈ s.projectiles, ∀ p ∈ e.2, t.projectile p = e.1)) ∧
    ((∀ e₁ ∈ s.units, ∀ e₂ ∈ s.units, ∀ u, u ∈ e₁.2 → u ∈ e₂.2 → e₁ = e₂) ∧
      (∀ e₁ ∈ s.features, ∀ e₂ ∈ s.features, ∀ f, AssocMap.contains e₁.2 f = true →
        AssocMap.contains e₂.2 f = true → e₁ = e₂) ∧
      (∀ e₁ ∈ s.featuresSave, ∀ e₂ ∈ s.featuresSave, ∀ f, AssocMap.contains e₁.2 f = true →
        AssocMap.contains e₂.2 f = true → e₁ = e₂) ∧
      (∀ e₁ ∈ s.projectiles, ∀ e₂ ∈ s.projectiles, ∀ p, p ∈ e₁.2 → p ∈ e₂.2 → e₁ = e₂)) := by
  obtain ⟨hu, hp, _, _⟩ := binsOk_of_reachable (reachable_of_reachableFixed h)
  obtain ⟨cu, cp⟩ := vecClass_of_reachableFixed h
  obtain ⟨fl, fs⟩ := featOk_of_reachableFixed h
  have k1 : ∀ e ∈ s.units, ∀ u ∈ e.2, t.unit u = e.1 := by
    intro e he u hx
    exact cu e.1 u (by rw [binAt_of_mem hu.1 he]; exact hx)
  have k2 : ∀ e ∈ s.features, ∀ f, AssocMap.contains e.2 f = true → t.feature f = e.1 := by
    intro e he f hx
    exact (fl.2 e.1 e.2 (AssocMap.find_of_mem fl.1 he)).2.2 f hx
  have k3 : ∀ e ∈ s.featuresSave, ∀ f, AssocMap.contains e.2 f = true → t.feature f = e.1 := by
    intro e he f hx
    exact (fs.2 e.1 e.2 (AssocMap.find_of_mem fs.1 he)).2.2 f hx
  have k4 : ∀ e ∈ s.projectiles, ∀ p ∈ e.2, t.projectile p = e.1 := by
    intro e he p hx
    exact cp e.1 p (by rw [binAt_of_mem hp.1 he]; exact hx)
  refine ⟨⟨k1, k2, k3, k4⟩, ?_, ?_, ?_, ?_⟩
  · intro e₁ h₁ e₂ h₂ u m₁ m₂
    exact entry_unique hu.1 h₁ h₂ ((k1 e₁ h₁ u m₁).symm.trans (k1 e₂ h₂ u m₂))
  · intro e₁ h₁ e₂ h₂ f m₁ m₂
    exact entry_unique fl.1 h₁ h₂ ((k2 e₁ h₁ f m₁).symm.trans (k2 e₂ h₂ f m₂))
  · intro e₁ h₁ e₂ h₂ f m₁ m₂
    exact entry_unique fs.1 h₁ h₂ ((k3 e₁ h₁ f m₁).symm.trans (k3 e₂ h₂ f m₂))
  · intro e₁ h₁ e₂ h₂ p m₁ m₂
    exact entry_unique hp.1 h₁ h₂ ((k4 e₁ h₁ p m₁).symm.trans (k4 e₂ h₂ p m₂))

/-- C15. Registry lookup never fails: for every integer `modelType`, `GetInstance`
returns a renderer and never a null pointer; it returns the 3DO, S3O, OBJ and ASS
variant for `MODELTYPE_3DO`, `MODELTYPE_S3O`, `MODELTYPE_OBJ` and `MODELTYPE_ASS`
respectively, and for every other value the base renderer constructed with
`MODELTYPE_OTHER`. -/
theorem getInstance_never_fails (c : ModelTypeIds) (hd : c.CaseLabelsDistinct)
    (modelType : Int) :
    (∃ r, GetInstance c modelType = some r) ∧
    GetInstance c c.MODELTYPE_3DO = some RendererObject.WorldObjectModelRenderer3DO ∧
    GetInstance c c.MODELTYPE_S3O = some RendererObject.WorldObjectModelRendererS3O ∧
    GetInstance c c.MODELTYPE_OBJ = some RendererObject.WorldObjectModelRendererOBJ ∧
    GetInstance c c.MODELTYPE_ASS = some RendererObject.WorldObjectModelRendererASS ∧
    (modelType ≠ c.MODELTYPE_3DO → modelType ≠ c.MODELTYPE_S3O →
      modelType ≠ c.MODELTYPE_OBJ → modelType ≠ c.MODELTYPE_ASS →
      GetInstance c modelType
        = some (RendererObject.IWorldObjectModelRenderer c.MODELTYPE_OTHER)) := by
  obtain ⟨h12, h13, h14, h23, h24, h34⟩ := hd
  refine ⟨?_, ?_, ?_, ?_, ?_, ?_⟩
  · unfold GetInstance
    split
    · exact ⟨_, rfl⟩
    · split
      · exact ⟨_, rfl⟩
      · split
        · exact ⟨_, rfl⟩
        · split <;> exact ⟨_, rfl⟩
  · simp [GetInstance]
  · simp [GetInstance, Ne.symm h12]
  · simp [GetInstance, Ne.symm h13, Ne.symm h23]
  · simp [GetInstance, Ne.symm h14, Ne.symm h24, Ne.symm h34]
  · intro n1 n2 n3 n4
    simp [GetInstance, n1, n2, n3, n4]

/-- C16. Bind/UnBind pairing: for a buffer that is not dead, the assertion of `Bind`
holds exactly when the buffer is not bound, and `Bind` then sets `bound`; the assertion
of `UnBind` holds exactly when the buffer is bound, and `UnBind` then clears `bound`.
Hence from an unbound buffer a sequence of calls runs without assertion failure exactly
when the calls strictly alternate beginning with `Bind`; a double `Bind` and an `UnBind`
while unbound trip the assertion. -/
theorem bind_unbind_pairing (g : GeometryBuffer) (hd : g.dead = false) :
    ((g.Bind).isSome = true ↔ g.bound = false) ∧
    (∀ g1, g.Bind = some g1 → g1.bound = true ∧ g1.dead = false) ∧
    ((g.UnBind).isSome = true ↔ g.bound = true) ∧
    (∀ g1, g.UnBind = some g1 → g1.bound = false ∧ g1.dead = false) ∧
    (g.bound = false →
      ∀ cs : List BufferCall, (g.runCalls cs).isSome = true ↔ AlternatesFromBind cs) ∧
    (∀ g1, g.Bind = some g1 → g1.Bind = none) ∧
    (g.bound = false → g.UnBind = none) := by
  obtain ⟨d, b⟩ := g
  simp only at hd
  subst hd
  refine ⟨?_, ?_, ?_, ?_, ?_, ?_, ?_⟩
  · cases b <;> simp [GeometryBuffer.Bind]
  · intro g1 h1
    cases b <;> simp [GeometryBuffer.Bind] at h1
    subst h1
    exact ⟨rfl, rfl⟩
  · cases b <;> simp [GeometryBuffer.UnBind]
  · intro g1 h1
    cases b <;> simp [GeometryBuffer.UnBind] at h1
    subst h1
    exact ⟨rfl, rfl⟩
  · intro hb cs
    simp only at hb
    subst hb
    rw [runCalls_isSome_iff cs _ rfl]
    unfold AlternatesFromBind expectedCall
    simp
  · intro g1 h1
    cases b <;> simp [GeometryBuffer.Bind] at h1
    subst h1
    simp [GeometryBuffer.Bind]
  · intro hb
    simp only at hb
    subst hb
    simp [GeometryBuffer.UnBind]

/-- C17, as amended. Swap-with-last removal removes exactly the requested object: in every
reachable state, for a registered unit `u` that is held only by the bin under the key
that `DelUnit` reads for it (as it is when the classification key of `u` has not changed
since it was added), after `DelUnit(u)` the unit `u` is in no unit bin, every other unit
is in the bin under `k` after the call exactly when it was before, and `numUnits` has
dropped by exactly 1; the same holds for `DelProjectile`, the projectile bins and
`numProjectiles`. -/
theorem del_removes_exactly [DecidableEq A] {s : Renderer A} (h : Reachable s)
    (tu : CUnit → Int) (tp : CProjectile → Int) (u : CUnit) (p : CProjectile) :
    (registeredIn s.units u = true → (∀ e ∈ s.units, u ∈ e.2 → e.1 = tu u) →
      (∀ e ∈ (DelUnit tu s u).units, u ∉ e.2) ∧
      (∀ v k, v ≠ u → (v ∈ binAt (DelUnit tu s u).units k ↔ v ∈ binAt s.units k)) ∧
      (DelUnit tu s u).numUnits = s.numUnits - 1) ∧
    (registeredIn s.projectiles p = true → (∀ e ∈ s.projectiles, p ∈ e.2 → e.1 = tp p) →
      (∀ e ∈ (DelProjectile tp s p).projectiles, p ∉ e.2) ∧
      (∀ q k, q ≠ p → (q ∈ binAt (DelProjectile tp s p).projectiles k
        ↔ q ∈ binAt s.projectiles k)) ∧
      (DelProjectile tp s p).numProjectiles = s.numProjectiles - 1) := by
  obtain ⟨hu, hp, _, _⟩ := binsOk_of_reachable h
  constructor
  · intro hreg hkey
    have hx := mem_binAt_of_registeredIn hu.1 hkey hreg
    obtain ⟨r1, r2⟩ := popBin_removes hu hkey hx
    have hk := keysNodup_popBin hu.1 (tu u) u
    refine ⟨?_, ?_, ?_⟩
    · rw [DelUnit_units]
      apply not_mem_entries_of_binAt (keysNodup_pruneBin hk _)
      intro k
      rw [binAt_pruneBin hk]
      exact r1 k
    · intro v k hv
      rw [DelUnit_units, binAt_pruneBin hk]
      exact r2 v k hv
    · rw [DelUnit_numUnits]; simp [hx]
  · intro hreg hkey
    have hx := mem_binAt_of_registeredIn hp.1 hkey hreg
    obtain ⟨r1, r2⟩ := popBin_removes hp hkey hx
    have hk := keysNodup_popBin hp.1 (tp p) p
    refine ⟨?_, ?_, ?_⟩
    · rw [DelProjectile_projectiles]
      exact not_mem_entries_of_binAt hk r1
    · intro q k hq
      rw [DelProjectile_projectiles]
      exact r2 q k hq
    · rw [DelProjectile_numProjectiles]; simp [hx]

/-- C17 as stated fails: after `AddUnit(1)` read under key 0, a `DelUnit(1)` that reads
key 1 for the unit searches the wrong bin, so the unit is still registered and
`numUnits` is still 1. -/
theorem delUnit_rekeyed_counterexample :
    Reachable unitAdded ∧ registeredIn unitAdded.units 1 = true ∧
    registeredIn (DelUnit rekeyedTex.unit unitAdded 1).units 1 = true ∧
    (DelUnit rekeyedTex.unit unitAdded 1).numUnits = unitAdded.numUnits ∧
    unitAdded.numUnits = 1 :=
  ⟨Reachable.step exampleTex (Call.addUnit 1) Reachable.init, by decide, by decide,
    by decide, by decide⟩

/-- C18. `DelFeature` prunes emptied bins: in every state (of unique-key maps), after
`DelFeature(f)` neither the live nor the saved collection has an empty bin under the
key of `f`; when `f` was the only feature of its live bin, the key of that bin is gone from
the live collection and `numFeatures` has dropped by 1, from 1 to 0 in the scenario of
the spec. -/
theorem delFeature_prunes_emptied_bins (t : CFeature → Int) (s : Renderer A) (f : CFeature)
    (hl : AssocMap.KeysNodup s.features) (hs : AssocMap.KeysNodup s.featuresSave) :
    (∀ e ∈ (DelFeature t s f).features, e.1 = t f → e.2 ≠ []) ∧
    (∀ e ∈ (DelFeature t s f).featuresSave, e.1 = t f → e.2 ≠ []) ∧
    (∀ a : A, AssocMap.find s.features (t f) = some [(f, a)] →
      AssocMap.contains (DelFeature t s f).features (t f) = false ∧
      (DelFeature t s f).numFeatures = s.numFeatures - 1 ∧
      (s.numFeatures = 1 → (DelFeature t s f).numFeatures = 0)) := by
  refine ⟨?_, ?_, ?_⟩
  · intro e he hk h0
    obtain ⟨k, v⟩ := e
    simp only at hk h0
    subst hk h0
    exact find_delFeatureFrom_ne_empty hl s.numFeatures (t f) f
      (AssocMap.find_of_mem (keysNodup_delFeatureFrom hl _ _ _) he)
  · intro e he hk h0
    obtain ⟨k, v⟩ := e
    simp only at hk h0
    subst hk h0
    exact find_delFeatureFrom_ne_empty hs s.numFeaturesSave (t f) f
      (AssocMap.find_of_mem (keysNodup_delFeatureFrom hs _ _ _) he)
  · intro a ha
    have hn : (DelFeature t s f).numFeatures = s.numFeatures - 1 := by
      simp [DelFeature, delFeatureFrom, ha, AssocMap.contains, AssocMap.find, AssocMap.erase]
    refine ⟨?_, hn, ?_⟩
    · simp [DelFeature, delFeatureFrom, ha, AssocMap.erase, AssocMap.contains,
        AssocMap.find_erase_self (AssocMap.keysNodup_put hl _ _)]
    · intro h1
      rw [hn, h1]; rfl

/-- C19. Add/Del round trip for units: in every reachable state `s`, for a unit `u` that
is in no unit bin, `DelUnit(AddUnit(s, u), u) = s`: the same keys, the same bins with the
same element order, the same `numUnits` and all other data. -/
theorem add_del_unit_roundtrip [DecidableEq A] {s : Renderer A} (h : Reachable s)
    (t : CUnit → Int) (u : CUnit) (hu : ∀ e ∈ s.units, u ∉ e.2) :
    DelUnit t (AddUnit t s u) u = s := by
  have hx := not_mem_binAt_of_forall hu (t u)
  have hin : u ∈ binAt (AddUnit t s u).units (t u) := by
    rw [AddUnit_units, binAt_pushBin]; simp [hx]
  have h1 : (DelUnit t (AddUnit t s u) u).units = s.units := by
    rw [DelUnit_units, AddUnit_units, prune_pop_push (noEmptyBin_units_of_reachable h) hx]
  have h2 : (DelUnit t (AddUnit t s u) u).numUnits = s.numUnits := by
    rw [DelUnit_numUnits, AddUnit_numUnits]; simp [hx, hin]
  rw [DelUnit_eq, h1, h2, AddUnit_eq]

/-- C20. The saved generation is written only by `DelFeature` and `SwapFeatures`:
`AddUnit`, `DelUnit`, `AddProjectile`, `DelProjectile` and `AddFeature` leave the saved
feature collection and `numFeaturesSave` unchanged; `AddFeature(f, a)` for a feature
present only in the saved collection registers `f` in the live collection and
increments `numFeatures`, so that `f` is afterwards present in both generations. -/
theorem saved_generation_frame [DecidableEq A] (tu : CUnit → Int) (tf : CFeature → Int)
    (tp : CProjectile → Int) (s : Renderer A) (u : CUnit) (f : CFeature) (a : A)
    (p : CProjectile) :
    ((AddUnit tu s u).featuresSave = s.featuresSave ∧
      (AddUnit tu s u).numFeaturesSave = s.numFeaturesSave) ∧
    ((DelUnit tu s u).featuresSave = s.featuresSave ∧
      (DelUnit tu s u).numFeaturesSave = s.numFeaturesSave) ∧
    ((AddProjectile tp s p).featuresSave = s.featuresSave ∧
      (AddProjectile tp s p).numFeaturesSave = s.numFeaturesSave) ∧
    ((DelProjectile tp s p).featuresSave = s.featuresSave ∧
      (DelProjectile tp s p).numFeaturesSave = s.numFeaturesSave) ∧
    ((AddFeature tf s f a).featuresSave = s.featuresSave ∧
      (AddFeature tf s f a).numFeaturesSave = s.numFeaturesSave) ∧
    (presentIn s.features f = false → presentIn s.featuresSave f = true →
      presentIn (AddFeature tf s f a).features f = true ∧
      presentIn (AddFeature tf s f a).featuresSave f = true ∧
      (AddFeature tf s f a).numFeatures = s.numFeatures + 1) := by
  have hAF : (AddFeature tf s f a).featuresSave = s.featuresSave ∧
      (AddFeature tf s f a).numFeaturesSave = s.numFeaturesSave := by
    unfold AddFeature
    simp only []
    split <;> [split; skip] <;> exact ⟨rfl, rfl⟩
  refine ⟨?_, ?_, ?_, ?_, hAF, ?_⟩
  · unfold AddUnit; simp only []; split <;> exact ⟨rfl, rfl⟩
  · unfold DelUnit; simp only []; split <;> split <;> exact ⟨rfl, rfl⟩
  · unfold AddProjectile; simp only []; split <;> exact ⟨rfl, rfl⟩
  · unfold DelProjectile; simp only []; split <;> exact ⟨rfl, rfl⟩
  · intro hl hsv
    have hnot : AssocMap.contains (binAt s.features (tf f)) f = false := by
      by_contra hc
      have := presentIn_of_contains_binAt (by simpa using hc : AssocMap.contains
        (binAt s.features (tf f)) f = true)
      rw [hl] at this
      exact Bool.false_ne_true this
    refine ⟨?_, ?_, ?_⟩
    · apply presentIn_of_contains_binAt (k := tf f)
      rw [AddFeature_features, binAt_put_self]
      simp [AssocMap.contains, AssocMap.find_put_self]
    · rw [hAF.1]; exact hsv
    · rw [AddFeature_numFeatures, hnot]; simp

/-! ## The claims at an example state -/

/-- The counters of the example state are the sums of its bin sizes. -/
theorem counters_eq_bin_sizes_witness :
    Reachable exampleState ∧
    (exampleState.numUnits = totalSize exampleState.units ∧
      exampleState.numProjectiles = totalSize exampleState.projectiles ∧
      exampleState.numFeatures = totalSize exampleState.features ∧
      exampleState.numFeaturesSave = totalSize exampleState.featuresSave) :=
  ⟨reachable_run exampleTex _, counters_eq_bin_sizes (reachable_run exampleTex _)⟩

/-- In the example state feature 4 is present only in the saved collection, under the key
that `DelFeature` reads, and `DelFeature(4)` removes it there and leaves the live side
alone. -/
theorem delFeature_dual_removal_witness :
    Reachable exampleState ∧
    (∀ e ∈ exampleState.features, AssocMap.contains e.2 4 = true → e.1 = exampleTex.feature 4) ∧
    (∀ e ∈ exampleState.featuresSave, AssocMap.contains e.2 4 = true
      → e.1 = exampleTex.feature 4) ∧
    presentIn exampleState.features 4 = false ∧
    presentIn exampleState.featuresSave 4 = true ∧
    (presentIn (DelFeature exampleTex.feature exampleState 4).featuresSave 4 = false ∧
      (DelFeature exampleTex.feature exampleState 4).numFeaturesSave
        = exampleState.numFeaturesSave - 1 ∧
      (DelFeature exampleTex.feature exampleState 4).features = exampleState.features ∧
      (DelFeature exampleTex.feature exampleState 4).numFeatures = exampleState.numFeatures) :=
  ⟨reachable_run exampleTex _, by decide, by decide, by decide, by decide,
    (delFeature_dual_removal (reachable_run exampleTex _) exampleTex.feature 4
      (by decide) (by decide)).2.2.2.2.1 (by decide) (by decide)⟩

/-- In the example state feature 3 is stored with opacity 6, and `AddFeature(3, 6)`
changes nothing. -/
theorem addFeature_insert_or_update_witness :
    AssocMap.find (binAt exampleState.features (exampleTex.feature 3)) 3 = some 6 ∧
    AddFeature exampleTex.feature exampleState 3 6 = exampleState :=
  ⟨by decide, (addFeature_insert_or_update exampleTex.feature exampleState 3 6 7).2.2.1
    (by decide)⟩

/-- Swapping on the initial state, whose saved collection is empty, gives an empty live
collection. -/
theorem swapFeatures_post_frame_witness :
    (Renderer.init Nat).featuresSave = [] ∧ (SwapFeatures (Renderer.init Nat)).features = [] :=
  ⟨rfl, (swapFeatures_post_frame (Renderer.init Nat)).2.2.2.2.2.2.2.2 rfl⟩

/-- Unit 7 is in no unit bin of the example state, and `DelUnit(7)` changes nothing. -/
theorem delUnit_absent_noop_witness :
    Reachable exampleState ∧ (∀ e ∈ exampleState.units, 7 ∉ e.2) ∧
    DelUnit exampleTex.unit exampleState 7 = exampleState :=
  ⟨reachable_run exampleTex _, by decide,
    delUnit_absent_noop (reachable_run exampleTex _) exampleTex.unit 7 (by decide)⟩

/-- Unit 1 and projectile 2 are registered in the example state, and adding them again
changes nothing. -/
theorem add_idempotent_witness :
    1 ∈ binAt exampleState.units (exampleTex.unit 1) ∧
    AddUnit exampleTex.unit exampleState 1 = exampleState ∧
    2 ∈ binAt exampleState.projectiles (exampleTex.projectile 2) ∧
    AddProjectile exampleTex.projectile exampleState 2 = exampleState :=
  ⟨by decide,
    (add_idempotent exampleTex.unit exampleTex.projectile exampleState 1 2).1 (by decide),
    by decide,
    (add_idempotent exampleTex.unit exampleTex.projectile exampleState 1 2).2.2.2.2.1
      (by decide)⟩

/-- In the crowded example state unit 2 sits in one bin, among three units, and one
`Draw` draws it once; feature 4, present only in the saved collection, is not drawn. -/
theorem draw_dispatch_count_witness :
    Reachable exampleCrowded ∧
    exampleCrowded.units = [(0, [1, 2, 3])] ∧
    (∀ e₁ ∈ exampleCrowded.units, ∀ e₂ ∈ exampleCrowded.units,
      2 ∈ e₁.2 → 2 ∈ e₂.2 → e₁ = e₂) ∧
    (Draw exampleCrowded).2.count (Event.DrawModelUnit 2)
      = (if registeredIn exampleCrowded.units 2 = true then 1 else 0) ∧
    registeredIn exampleCrowded.units 2 = true ∧
    presentIn exampleCrowded.features 4 = false ∧
    presentIn exampleCrowded.featuresSave 4 = true ∧
    (Draw exampleCrowded).2.count (Event.DrawModelFeature 4) = 0 :=
  ⟨reachable_run exampleTex _, by decide, by decide,
    (draw_dispatch_count (reachable_run exampleTex _)).2.2.2.2.2.2.1 2 (by decide),
    by decide, by decide, by decide,
    (draw_dispatch_count (reachable_run exampleTex _)).2.2.2.2.2.2.2.2.2 4
      (by decide) (by decide)⟩

/-- In the example state the draw of unit 1 is at position 1 and the draw of feature 3
at position 2. -/
theorem draw_ordering_witness :
    (Draw exampleState).2[1]? = some (Event.DrawModelUnit 1) ∧
    (Draw exampleState).2[2]? = some (Event.DrawModelFeature 3) ∧ 1 < 2 :=
  ⟨by decide, by decide,
    (draw_ordering exampleState).2.2.1 1 2 1 3 (by decide) (by decide)⟩

/-- No bin of the example state holds an object twice. -/
theorem no_duplicates_in_bins_witness :
    Reachable exampleState ∧
    ((∀ e ∈ exampleState.units, e.2.Nodup) ∧ (∀ e ∈ exampleState.projectiles, e.2.Nodup) ∧
      (∀ e ∈ exampleState.features, AssocMap.KeysNodup e.2) ∧
      (∀ e ∈ exampleState.featuresSave, AssocMap.KeysNodup e.2)) :=
  ⟨reachable_run exampleTex _, no_duplicates_in_bins (reachable_run exampleTex _)⟩

/-- Every unit of the example state is in the bin under its own key. -/
theorem single_bin_membership_witness :
    ReachableFixed exampleTex exampleState ∧
    (∀ e ∈ exampleState.units, ∀ u ∈ e.2, exampleTex.unit u = e.1) :=
  ⟨reachableFixed_run exampleTex _,
    (single_bin_membership (reachableFixed_run exampleTex _)).1.1⟩

/-- With the constants numbered 0 to 4, the lookup of model type 7 gives the base
renderer constructed with `MODELTYPE_OTHER`. -/
theorem getInstance_never_fails_witness :
    exampleModelTypeIds.CaseLabelsDistinct ∧
    GetInstance exampleModelTypeIds 7 = some (RendererObject.IWorldObjectModelRenderer 4) :=
  ⟨by unfold ModelTypeIds.CaseLabelsDistinct; decide,
    (getInstance_never_fails exampleModelTypeIds
      (by unfold ModelTypeIds.CaseLabelsDistinct; decide) 7).2.2.2.2.2
      (by decide) (by decide) (by decide) (by decide)⟩

/-- On a new buffer `Bind`, `UnBind`, `Bind` runs without assertion failure, and
`Bind`, `Bind` does not. -/
theorem bind_unbind_pairing_witness :
    GeometryBuffer.new.dead = false ∧ GeometryBuffer.new.bound = false ∧
    AlternatesFromBind [BufferCall.bind, BufferCall.unBind, BufferCall.bind] ∧
    ¬ AlternatesFromBind [BufferCall.bind, BufferCall.bind] :=
  ⟨rfl, rfl,
    ((bind_unbind_pairing GeometryBuffer.new rfl).2.2.2.2.1 rfl
      [BufferCall.bind, BufferCall.unBind, BufferCall.bind]).1 (by decide),
    fun h => absurd (((bind_unbind_pairing GeometryBuffer.new rfl).2.2.2.2.1 rfl
      [BufferCall.bind, BufferCall.bind]).2 h) (by decide)⟩

/-- In the crowded example state unit 1 is the first of three units of its bin and
projectile 6 the second of three: `DelUnit(1)` moves the last unit into its place and
`DelProjectile(6)` the last projectile, the other objects stay registered and each
counter drops by 1. -/
theorem del_removes_exactly_witness :
    Reachable exampleCrowded ∧
    exampleCrowded.units = [(0, [1, 2, 3])] ∧
    exampleCrowded.projectiles = [(0, [5, 6, 7])] ∧
    (DelUnit exampleTex.unit exampleCrowded 1).units = [(0, [3, 2])] ∧
    (DelProjectile exampleTex.projectile exampleCrowded 6).projectiles = [(0, [5, 7])] ∧
    registeredIn exampleCrowded.units 1 = true ∧
    (∀ e ∈ exampleCrowded.units, 1 ∈ e.2 → e.1 = exampleTex.unit 1) ∧
    ((∀ e ∈ (DelUnit exampleTex.unit exampleCrowded 1).units, 1 ∉ e.2) ∧
      (∀ v k, v ≠ 1 → (v ∈ binAt (DelUnit exampleTex.unit exampleCrowded 1).units k
        ↔ v ∈ binAt exampleCrowded.units k)) ∧
      (DelUnit exampleTex.unit exampleCrowded 1).numUnits = exampleCrowded.numUnits - 1) ∧
    registeredIn exampleCrowded.projectiles 6 = true ∧
    (∀ e ∈ exampleCrowded.projectiles, 6 ∈ e.2 → e.1 = exampleTex.projectile 6) ∧
    ((∀ e ∈ (DelProjectile exampleTex.projectile exampleCrowded 6).projectiles, 6 ∉ e.2) ∧
      (∀ q k, q ≠ 6 → (q ∈ binAt (DelProjectile exampleTex.projectile exampleCrowded 6).projectiles k
        ↔ q ∈ binAt exampleCrowded.projectiles k)) ∧
      (DelProjectile exampleTex.projectile exampleCrowded 6).numProjectiles
        = exampleCrowded.numProjectiles - 1) :=
  ⟨reachable_run exampleTex _, by decide, by decide, by decide, by decide, by decide,
    by decide,
    (del_removes_exactly (reachable_run exampleTex _) exampleTex.unit exampleTex.projectile
      1 6).1 (by decide) (by decide),
    by decide, by decide,
    (del_removes_exactly (reachable_run exampleTex _) exampleTex.unit exampleTex.projectile
      1 6).2 (by decide) (by decide)⟩

/-- In the example state feature 3 is the only feature of the live bin under key 1, and
`DelFeature(3)` removes that key and leaves `numFeatures` at 0. -/
theorem delFeature_prunes_emptied_bins_witness :
    AssocMap.KeysNodup exampleState.features ∧ AssocMap.KeysNodup exampleState.featuresSave ∧
    AssocMap.find exampleState.features (exampleTex.feature 3) = some [(3, 6)] ∧
    exampleState.numFeatures = 1 ∧
    AssocMap.contains (DelFeature exampleTex.feature exampleState 3).features
      (exampleTex.feature 3) = false ∧
    (DelFeature exampleTex.feature exampleState 3).numFeatures = 0 :=
  ⟨by unfold AssocMap.KeysNodup; decide, by unfold AssocMap.KeysNodup; decide, by decide,
    by decide,
    ((delFeature_prunes_emptied_bins exampleTex.feature exampleState 3
      (by unfold AssocMap.KeysNodup; decide) (by unfold AssocMap.KeysNodup; decide)).2.2 6
      (by decide)).1,
    ((delFeature_prunes_emptied_bins exampleTex.feature exampleState 3
      (by unfold AssocMap.KeysNodup; decide) (by unfold AssocMap.KeysNodup; decide)).2.2 6
      (by decide)).2.2 (by decide)⟩

/-- Unit 7 is in no unit bin of the example state, and adding then deleting it gives
the example state back. -/
theorem add_del_unit_roundtrip_witness :
    Reachable exampleState ∧ (∀ e ∈ exampleState.units, 7 ∉ e.2) ∧
    DelUnit exampleTex.unit (AddUnit exampleTex.unit exampleState 7) 7 = exampleState :=
  ⟨reachable_run exampleTex _, by decide,
    add_del_unit_roundtrip (reachable_run exampleTex _) exampleTex.unit 7 (by decide)⟩

/-- In the example state feature 4 is present only in the saved collection; after
`AddFeature(4, 9)` it is present in both generations. -/
theorem saved_generation_frame_witness :
    presentIn exampleState.features 4 = false ∧ presentIn exampleState.featuresSave 4 = true ∧
    (presentIn (AddFeature exampleTex.feature exampleState 4 9).features 4 = true ∧
      presentIn (AddFeature exampleTex.feature exampleState 4 9).featuresSave 4 = true ∧
      (AddFeature exampleTex.feature exampleState 4 9).numFeatures
        = exampleState.numFeatures + 1) :=
  ⟨by decide, by decide,
    (saved_generation_frame exampleTex.unit exampleTex.feature exampleTex.projectile
      exampleState 1 4 9 2).2.2.2.2.2 (by decide) (by decide)⟩

end Spring
